import Mathlib

/-!
Verification development for the gpt-subb subtitle-translation pipeline
(src/index.ts).  JavaScript strings are embedded as lists of characters
(`Str`); the regex operations used by the source are embedded by their
match-by-match semantics; fallible code (code that can throw) returns
`Option`.  The nondeterministic `randomCode` calls of `parseFile` are
embedded by passing the drawn codes in as a function from the node index.
-/

/-- JavaScript strings are embedded as lists of characters. -/
abbrev Str := List Char

/-- Embeds a Lean string literal as a `Str`. -/
def str (s : String) : Str := s.toList

/-- Payload of a subtitle cue node as produced by the external `parseSync`
(timing fields are carried opaquely, only `text` is ever inspected). -/
structure CueData where
  startTime : Int
  endTime : Int
  text : Str
deriving DecidableEq, Repr

/-- One node of the parsed subtitle file: a `type` discriminator
(`"cue"` for subtitle entries) and an optional data payload.  Nodes whose
data is not a cue object (e.g. header nodes) are embedded with `data = none`,
which matches how the source only ever reads `data?.text`. -/
structure SubNode where
  type : Str
  data : Option CueData
deriving DecidableEq, Repr

/-- A node after `parseFile` attached a correlation code to it. -/
structure TaggedNode where
  type : Str
  code : Str
  data : Option CueData
deriving DecidableEq, Repr

/-- A node after `applyTranslationCues` attached the translation lookup
result (`none` embeds the JavaScript `null`). -/
structure TransNode where
  type : Str
  code : Str
  data : Option CueData
  translated : Option Str
deriving DecidableEq, Repr

/-- An output record of `prepareOutput`.  The source returns objects of two
shapes: untranslated items keep their `code` and `translated` fields, while
translated items have both removed.  A removed field is embedded as `none`
in the outer `Option`. -/
structure OutNode where
  type : Str
  code : Option Str
  translated : Option (Option Str)
  data : Option CueData
deriving DecidableEq, Repr

/-- Text of an optional cue payload; absent data reads as the empty string
(JavaScript `data?.text` being `undefined`, which is falsy like `""`). -/
def dataText : Option CueData → Str
  | some d => d.text
  | none => []

/-- The letter alphabet of `randomCode`. -/
def lettersStr : Str := str "ABCDEFGHIJKLMNOPQRSTUVWXYZ"

/-- Embeds `randomCode(alpha, number)` from the source: `alpha` random
uppercase letters followed by `number` random digits.  The random draws
(`Math.floor(Math.random() * bound)`) are supplied as the two index lists. -/
def randomCode (alphaPicks numPicks : List Nat) : Str :=
  alphaPicks.map (fun i => lettersStr.getD (i % 26) 'A') ++
    numPicks.map (fun i => Char.ofNat (48 + i % 10))

/-- Embeds `parseFile`: the external parse result is mapped, attaching a
fresh random code to every node.  The codes drawn by `randomCode(3, 3)` are
supplied by `code`, indexed by node position. -/
def parseFile (nodes : List SubNode) (code : Nat → Str) : List TaggedNode :=
  nodes.enum.map (fun p => ⟨p.2.type, code p.1, p.2.data⟩)

/-- The per-node body of the `parsed.map` inside `getMessageQueue`: a cue
node with truthy text renders as the tagged payload, all other nodes render
as `null` and are dropped by `.filter(Boolean)`. -/
def cueLine (n : TaggedNode) : Option Str :=
  if n.type = str "cue" ∧ dataText n.data ≠ [] then
    some ('<' :: (n.code ++ '>' :: '\n' :: dataText n.data))
  else none

/-- The list of rendered translatable-cue payloads of `getMessageQueue`. -/
def cueLines (parsed : List TaggedNode) : List Str :=
  parsed.filterMap cueLine

/-- Embeds `getMessageQueue`.  `Math.ceil(cues.length / batchSize)` is exact
integer ceiling division for `batchSize ≥ 1`.  For an integer
`batchSize < 0` with `cues.length < -batchSize` the quotient lies in
`(-1, 0]`, so `Math.ceil` gives `-0` and `Array(-0)` is the empty array
(the run continues with zero batches); for `batchSize < 0` with
`cues.length ≥ -batchSize` the count is an integer `≤ -1` and for
`batchSize = 0` it is `Infinity` or `NaN`, and in those cases
`Array(count)` throws a `RangeError` (embedded as `none`). -/
def getMessageQueue (parsed : List TaggedNode) (batchSize : Int) : Option (List (List Str)) :=
  let cues := cueLines parsed
  if 1 ≤ batchSize then
    let b := batchSize.toNat
    let m := (cues.length + b - 1) / b
    some ((List.range m).map (fun i => (cues.drop (i * b)).take b))
  else if batchSize < 0 ∧ (cues.length : Int) < -batchSize then some []
  else none

/-- Whitespace class of the JavaScript regex `\s`. -/
def jsWS (c : Char) : Bool :=
  c = ' ' || c = '\t' || c = '\n' || c = '\r' || c.toNat = 11 || c.toNat = 12 ||
  c.toNat = 160 || c.toNat = 5760 || (8192 ≤ c.toNat && c.toNat ≤ 8202) ||
  c.toNat = 8232 || c.toNat = 8233 || c.toNat = 8239 || c.toNat = 8287 ||
  c.toNat = 12288 || c.toNat = 65279

/-- Line terminators of JavaScript regexes (what multiline `^`/`$` anchor
around and what `.` refuses to match). -/
def lineTerm (c : Char) : Bool :=
  c = '\n' || c = '\r' || c.toNat = 8232 || c.toNat = 8233

/-- Character class of the JavaScript regex `.` (without the `s` flag). -/
def jsDotChar (c : Char) : Bool := !(lineTerm c)

/-- For the trailing `\s*$` of the trim regex: given the rest of the input
after the greedy `(.*)` capture, the number of whitespace characters the
greedy `\s*` keeps so that `$` still matches (the largest prefix of the
whitespace run that ends at end-of-input or right before a line
terminator). -/
def bestK (s : Str) : Nat :=
  let R := s.takeWhile jsWS
  if R.length = s.length then s.length
  else (List.range R.length).foldl
    (fun best k => if lineTerm (R.getD k ' ') then k else best) 0

/-- One successful match of `/^\s*(.*)\s*$/m` at a `^` position: returns the
captured group (the replacement) and the total number of characters the
match consumed.  The leading `\s*` takes the maximal whitespace run, `(.*)`
then takes the maximal run of `.`-characters, and the trailing `\s*`
keeps `bestK` further characters. -/
def matchAtCaret (s : Str) : Str × Nat :=
  let afterA := s.dropWhile jsWS
  let aLen := s.length - afterA.length
  let B := afterA.takeWhile jsDotChar
  let afterB := afterA.dropWhile jsDotChar
  (B, aLen + B.length + bestK afterB)

/-- Driver of the global replacement `replace(/^\s*(.*)\s*$/gm, d1)` (where
d1 is the first capture): at a `^` position the next match is consumed and
replaced by its capture; elsewhere characters are copied until the position
following a line terminator.  `fuel` bounds the recursion (every step
consumes at least one character). -/
def jsTrimAux : Nat → Str → Bool → Str
  | 0, s, _ => s
  | _, [], _ => []
  | fuel + 1, c :: cs, caret =>
    if caret then
      let m := matchAtCaret (c :: cs)
      if m.2 = 0 then c :: cs
      else
        m.1 ++ jsTrimAux fuel ((c :: cs).drop m.2)
          (lineTerm ((c :: cs).getD (m.2 - 1) c))
    else
      c :: jsTrimAux fuel cs (lineTerm c)

/-- Embeds `translation.replace(/^\s*(.*)\s*$/gm, d1)` (d1 the first
capture) from `translateQueue`. -/
def jsTrimLines (s : Str) : Str := jsTrimAux s.length s true

/-- Boolean prefix test used to locate separator occurrences. -/
def prefixOf : Str → Str → Bool
  | [], _ => true
  | _ :: _, [] => false
  | p :: ps, c :: cs => p == c && prefixOf ps cs

/-- Recursion core of the JavaScript `String.prototype.split` embedding:
occurrences of the separator are found left to right, non-overlapping.
`fuel` bounds the recursion; every step consumes at least one character when
the separator is nonempty, so `fuel = s.length` always suffices. -/
def splitOnSepAux (sep : Str) : Nat → Str → List Str
  | _, [] => [[]]
  | 0, s => [s]
  | fuel + 1, c :: cs =>
    if sep ≠ [] ∧ prefixOf sep (c :: cs) = true then
      [] :: splitOnSepAux sep fuel ((c :: cs).drop sep.length)
    else
      match splitOnSepAux sep fuel cs with
      | [] => [[c]]
      | s :: ss => (c :: s) :: ss

/-- Embeds JavaScript `String.prototype.split` with a nonempty string
separator. -/
def splitOnSep (sep : Str) (s : Str) : List Str := splitOnSepAux sep s.length s

/-- The reserved batch separator `"\n<000000>\n"` of `translateQueue`. -/
def sepStr : Str := str "\n<000000>\n"

/-- Embeds `queue.join(sep)` (JavaScript `Array.prototype.join`). -/
def joinSep (sep : Str) : List Str → Str
  | [] => []
  | [x] => x
  | x :: y :: rest => x ++ sep ++ joinSep sep (y :: rest)

/-- Replaces the first occurrence of `pat` in `s` by `rep` (JavaScript
`String.prototype.replace` with a string pattern; the `$`-escape semantics
of the replacement string is not reached by anything in this development). -/
def replaceFirst (s pat rep : Str) : Str :=
  match s with
  | [] => if pat = [] then rep else []
  | c :: cs =>
    if prefixOf pat (c :: cs) = true then rep ++ (c :: cs).drop pat.length
    else c :: replaceFirst cs pat rep

/-- Embeds `translateQueue`: builds the prompt from the configured template,
calls the transport, and on a falsy reply (failure or empty string) returns
the untranslated queue itself; otherwise per-line-trims the reply and splits
it on the reserved separator. -/
def translateQueue (transport : Str → Option Str) (template lang : Str)
    (queue : List Str) : List Str :=
  let prompt := replaceFirst (replaceFirst template (str "[lang]") lang)
    (str "[text]") (joinSep sepStr queue)
  match transport prompt with
  | none => queue
  | some t => if t = [] then queue else splitOnSep sepStr (jsTrimLines t)

/-- Embeds `translateQueues`: the batches are translated strictly in order
and the per-batch results are appended into one flat list. -/
def translateQueues (transport : Str → Option Str) (template lang : Str)
    (queues : List (List Str)) : List Str :=
  queues.foldl (fun acc q => acc ++ translateQueue transport template lang q) []

/-- Character class `[A-Z0-9]` of the reply-parsing regex (by the code
points of the class bounds). -/
def tokenChar (c : Char) : Bool :=
  (65 ≤ c.toNat && c.toNat ≤ 90) || (48 ≤ c.toNat && c.toNat ≤ 57)

/-- One attempted match of `/<([A-Z0-9]{6})>\n(.*)/` at the current
position: a literal `<`, exactly six token characters, `>`, a newline, then
the greedy `(.*)` capture running to the end of the line. -/
def matchTokenAt : Str → Option (Str × Str)
  | '<' :: rest =>
    if (rest.take 6).length = 6 ∧ (rest.take 6).all tokenChar = true then
      match rest.drop 6 with
      | '>' :: '\n' :: text => some (rest.take 6, text.takeWhile jsDotChar)
      | _ => none
    else none
  | _ => none

/-- Leftmost match of the reply-parsing regex in a string: the embedding of
`item.matchAll(/<([A-Z0-9]{6})>\n(.*)/gm).next().value` (`none` when the
iterator is exhausted immediately, i.e. the segment has no match at all). -/
def firstTokenMatch : Str → Option (Str × Str)
  | [] => none
  | c :: rest =>
    match matchTokenAt (c :: rest) with
    | some r => some r
    | none => firstTokenMatch rest

/-- Embeds `translatedToCues`.  For each segment the first regex match is
destructured; a segment without any match makes `.next().value` the value
`undefined` and the array destructuring throw a `TypeError`, which is
embedded as `none` for the whole call.  Matches with an empty captured code
or text are mapped to `null` and removed by `.filter(Boolean)`. -/
def translatedToCues : List Str → Option (List (Str × Str))
  | [] => some []
  | item :: rest =>
    match firstTokenMatch item with
    | none => none
    | some ct =>
      match translatedToCues rest with
      | none => none
      | some l => if ct.1 = [] ∨ ct.2 = [] then some l else some (ct :: l)

/-- Lookup in the `Map` built by `applyTranslationCues` from the
translation pair list: for duplicate keys the last entry wins, absent keys
give `none` (the JavaScript `?? null`). -/
def mapGet (entries : List (Str × Str)) (key : Str) : Option Str :=
  match entries.reverse.find? (fun p => p.1 == key) with
  | some p => some p.2
  | none => none

/-- Embeds `applyTranslationCues`: every parsed node is extended with the
translation found for its code (or `null`). -/
def applyTranslationCues (parsed : List TaggedNode)
    (translations : List (Str × Str)) : List TransNode :=
  parsed.map (fun it => ⟨it.type, it.code, it.data, mapGet translations it.code⟩)

/-- Embeds `prepareOutput`: items with a falsy `translated`, a non-cue
`type`, or falsy `data` are returned unchanged (keeping their `code` and
`translated` fields); for the rest the `code` and `translated` fields are
removed and the data text is replaced by the translation. -/
def prepareOutput (l : List TransNode) : List OutNode :=
  l.map (fun it =>
    match it.translated, it.data with
    | some t, some d =>
      if t = [] ∨ it.type ≠ str "cue" then
        ⟨it.type, some it.code, some it.translated, it.data⟩
      else ⟨it.type, none, none, some ⟨d.startTime, d.endTime, t⟩⟩
    | _, _ => ⟨it.type, some it.code, some it.translated, it.data⟩)

/-- The pure core of `main`: parse (with drawn codes), batch, translate all
batches, parse the replies, reassemble, and prepare the output records.
File I/O and serialization are external; a thrown `RangeError` (batching)
or `TypeError` (reply parsing) is embedded as `none`. -/
def runPipeline (transport : Str → Option Str) (template lang : Str)
    (batchSize : Int) (nodes : List SubNode) (code : Nat → Str) :
    Option (List OutNode) :=
  let parsed := parseFile nodes code
  match getMessageQueue parsed batchSize with
  | none => none
  | some queues =>
    match translatedToCues (translateQueues transport template lang queues) with
    | none => none
    | some pairs => some (prepareOutput (applyTranslationCues parsed pairs))

/-- Structure-and-text view of an input node (what the claims compare:
the type tag and the data payload including its text). -/
def inView (n : SubNode) : Str × Option CueData := (n.type, n.data)

/-- Structure-and-text view of an output record. -/
def outView (n : OutNode) : Str × Option CueData := (n.type, n.data)

/-- The (code, text) pairs of the translatable cues of a parsed node list,
in order: what a perfect round trip should recover. -/
def tPairs (parsed : List TaggedNode) : List (Str × Str) :=
  parsed.filterMap (fun n =>
    if n.type = str "cue" ∧ dataText n.data ≠ [] then
      some (n.code, dataText n.data)
    else none)

/-- The rendered payload of one translatable cue pair. -/
def itemOf (p : Str × Str) : Str := '<' :: (p.1 ++ '>' :: '\n' :: p.2)

/-- Composite per-node result of reassembly followed by output preparation;
`prepareOutput (applyTranslationCues parsed ts) = parsed.map (outNodeOf ts)`. -/
def outNodeOf (ts : List (Str × Str)) (n : TaggedNode) : OutNode :=
  match mapGet ts n.code, n.data with
  | some t, some d =>
    if t = [] ∨ n.type ≠ str "cue" then
      ⟨n.type, some n.code, some (some t), n.data⟩
    else ⟨n.type, none, none, some ⟨d.startTime, d.endTime, t⟩⟩
  | tr, _ => ⟨n.type, some n.code, some tr, n.data⟩

/-- A six-character correlation token over the uppercase-alphanumeric
alphabet, as `randomCode(3, 3)` always produces. -/
def valid6 (c : Str) : Prop := c.length = 6 ∧ c.all tokenChar = true

/-- A node the pipeline schedules for translation: a cue with truthy text. -/
def translatable (n : TaggedNode) : Prop :=
  n.type = str "cue" ∧ dataText n.data ≠ []

/-- A reply line that the trim replacement maps to itself: nonempty, not
beginning with whitespace, and containing no line terminator. -/
def goodLine : Str → Prop
  | [] => False
  | c :: cs => jsWS c = false ∧ ∀ x ∈ c :: cs, jsDotChar x = true

/-- No occurrence of `sep` begins strictly inside `l` when `l` is followed
by `tail`: used to locate the separator occurrences of a joined payload. -/
def noOccNE (sep l tail : Str) : Prop :=
  ∀ u, u ≠ [] → u <:+ l → prefixOf sep (u ++ tail) = false

/-- The marker line (`<CODE>`) of one rendered cue payload. -/
def codeLine (c : Str) : Str := '<' :: (c ++ ['>'])

/-- The newline-separated lines of a joined batch payload: marker line and
text line of each item, with the reserved `<000000>` separator line between
consecutive items. -/
def linesOf : List (Str × Str) → List Str
  | [] => []
  | [p] => [codeLine p.1, p.2]
  | p :: q :: r => codeLine p.1 :: p.2 :: str "<000000>" :: linesOf (q :: r)

theorem tokenChar_ne_nl {c : Char} (h : tokenChar c = true) : c ≠ '\n' :=
  fun heq => absurd (heq ▸ h) (by decide)

theorem jsDotChar_of_tokenChar {c : Char} (h : tokenChar c = true) :
    jsDotChar c = true := by
  by_cases h10 : c = '\n'
  · exact absurd (h10 ▸ h) (by decide)
  · by_cases h13 : c = '\r'
    · exact absurd (h13 ▸ h) (by decide)
    · simp only [tokenChar, Bool.or_eq_true, Bool.and_eq_true, decide_eq_true_eq] at h
      simp only [jsDotChar, lineTerm, Bool.not_eq_true', Bool.or_eq_false_iff,
        decide_eq_false_iff_not]
      refine ⟨⟨⟨h10, h13⟩, ?_⟩, ?_⟩ <;> omega

theorem jsDotChar_ne_nl {c : Char} (h : jsDotChar c = true) : c ≠ '\n' :=
  fun heq => absurd (heq ▸ h) (by decide)

theorem lineTerm_eq_false_of_dot {c : Char} (h : jsDotChar c = true) :
    lineTerm c = false := by
  simpa [jsDotChar] using h

theorem takeWhile_all {p : Char → Bool} {l : Str} (h : ∀ x ∈ l, p x = true) :
    l.takeWhile p = l := List.takeWhile_eq_self_iff.mpr h

theorem dropWhile_all {p : Char → Bool} {l : Str} (h : ∀ x ∈ l, p x = true) :
    l.dropWhile p = [] := by
  induction l with
  | nil => rfl
  | cons c cs ih =>
    rw [List.dropWhile_cons, if_pos (h c (by simp))]
    exact ih (fun x hx => h x (by simp [hx]))

theorem takeWhile_append_stop {p : Char → Bool} {a : Str} {y : Char} {r : Str}
    (ha : ∀ x ∈ a, p x = true) (hy : p y = false) :
    (a ++ y :: r).takeWhile p = a := by
  induction a with
  | nil => simp [List.takeWhile_cons, hy]
  | cons c cs ih =>
    rw [List.cons_append, List.takeWhile_cons, if_pos (ha c (by simp))]
    rw [ih (fun x hx => ha x (by simp [hx]))]

theorem dropWhile_append_stop {p : Char → Bool} {a : Str} {y : Char} {r : Str}
    (ha : ∀ x ∈ a, p x = true) (hy : p y = false) :
    (a ++ y :: r).dropWhile p = y :: r := by
  induction a with
  | nil => simp [List.dropWhile_cons, hy]
  | cons c cs ih =>
    rw [List.cons_append, List.dropWhile_cons, if_pos (ha c (by simp))]
    exact ih (fun x hx => ha x (by simp [hx]))

theorem dropWhile_cons_stop {p : Char → Bool} {c : Char} {cs : Str}
    (h : p c = false) : (c :: cs).dropWhile p = c :: cs := by
  simp [List.dropWhile_cons, h]

theorem prefixOf_append_self (p t : Str) : prefixOf p (p ++ t) = true := by
  induction p with
  | nil => rfl
  | cons c cs ih => simp [prefixOf, ih]

theorem prefixOf_head_ne {c d : Char} {ps cs : Str} (h : c ≠ d) :
    prefixOf (c :: ps) (d :: cs) = false := by
  simp [prefixOf, h]

theorem prefixOf_exists {p s : Str} (h : prefixOf p s = true) :
    ∃ t, s = p ++ t := by
  induction p generalizing s with
  | nil => exact ⟨s, rfl⟩
  | cons c cs ih =>
    cases s with
    | nil => simp [prefixOf] at h
    | cons d ds =>
      simp only [prefixOf, Bool.and_eq_true, beq_iff_eq] at h
      obtain ⟨rfl, h2⟩ := h
      obtain ⟨t, rfl⟩ := ih h2
      exact ⟨t, rfl⟩

theorem joinSep_append (s : Str) {A B : List Str} (hA : A ≠ []) (hB : B ≠ []) :
    joinSep s (A ++ B) = joinSep s A ++ s ++ joinSep s B := by
  induction A with
  | nil => exact absurd rfl hA
  | cons a A ih =>
    cases A with
    | nil =>
      cases B with
      | nil => exact absurd rfl hB
      | cons b B => simp [joinSep]
    | cons a2 A2 =>
      have := ih (by simp)
      simp only [List.cons_append] at this ⊢
      rw [joinSep, joinSep]
      · rw [this]; simp [List.append_assoc]

theorem suffix_append_cases {u a r : Str} (h : u <:+ a ++ r) :
    u <:+ r ∨ ∃ a₁, a₁ ≠ [] ∧ a₁ <:+ a ∧ u = a₁ ++ r := by
  induction a with
  | nil => exact Or.inl (by simpa using h)
  | cons x a ih =>
    rw [List.cons_append, List.suffix_cons_iff] at h
    rcases h with rfl | h
    · exact Or.inr ⟨x :: a, by simp, List.suffix_refl _, rfl⟩
    · rcases ih h with h1 | ⟨a₁, hne, hsuf, rfl⟩
      · exact Or.inl h1
      · exact Or.inr ⟨a₁, hne, hsuf.trans (List.suffix_cons _ _), rfl⟩

theorem sepStr_eq : sepStr = '\n' :: (str "<000000>" ++ ['\n']) := by decide

theorem prefixOf_sep_cons {x : Char} (h : x ≠ '\n') (s : Str) :
    prefixOf sepStr (x :: s) = false := by
  rw [sepStr_eq]
  exact prefixOf_head_ne (Ne.symm h)

theorem prefixOf_sep_nl_text {t w : Str} (hnl : ∀ x ∈ t, x ≠ '\n')
    (hne : t ≠ str "<000000>")
    (hw : w = [] ∨ ∃ w2, w = '\n' :: w2) :
    prefixOf sepStr ('\n' :: (t ++ w)) = false := by
  rw [sepStr_eq, prefixOf]
  simp only [beq_self_eq_true, Bool.true_and]
  by_contra hcon
  rw [Bool.not_eq_false] at hcon
  obtain ⟨z, hz⟩ := prefixOf_exists hcon
  rw [List.append_assoc] at hz
  rcases List.append_eq_append_iff.mp hz with ⟨a, hq, hw2⟩ | ⟨c2, ht, hzz⟩
  · cases a with
    | nil => exact hne (by simpa using hq.symm)
    | cons x a2 =>
      rcases hw with rfl | ⟨w2, rfl⟩
      · exact absurd hw2 (by simp)
      · rw [List.cons_append] at hw2
        have hx : x = '\n' := (List.cons_eq_cons.mp hw2).1.symm
        have hmem : x ∈ str "<000000>" := by rw [hq]; simp
        rw [hx] at hmem
        exact absurd hmem (by decide)
  · cases c2 with
    | nil => exact hne (by simpa using ht)
    | cons x c3 =>
      rw [List.cons_append] at hzz
      have hx : x = '\n' := (List.cons_eq_cons.mp hzz).1.symm
      have hxt : x ∈ t := by rw [ht]; simp
      exact hnl x hxt hx

theorem item_noOcc {c t : Str} (hc : valid6 c) (ht : ∀ x ∈ t, jsDotChar x = true)
    (hne : t ≠ str "<000000>") {w : Str}
    (hw : w = [] ∨ ∃ w2, w = '\n' :: w2) :
    noOccNE sepStr (itemOf (c, t)) w := by
  intro u hu hsuf
  simp only [itemOf] at hsuf
  rcases List.suffix_cons_iff.mp hsuf with rfl | hsuf2
  · rw [List.cons_append]; exact prefixOf_sep_cons (by decide) _
  · rcases suffix_append_cases hsuf2 with h3 | ⟨a₁, hne1, hsufc, rfl⟩
    · rcases List.suffix_cons_iff.mp h3 with rfl | h4
      · rw [List.cons_append]; exact prefixOf_sep_cons (by decide) _
      · rcases List.suffix_cons_iff.mp h4 with rfl | h5
        · rw [List.cons_append]
          exact prefixOf_sep_nl_text (fun x hx => jsDotChar_ne_nl (ht x hx)) hne hw
        · cases u with
          | nil => exact absurd rfl hu
          | cons x us =>
            have hx : x ∈ t := h5.subset (by simp)
            rw [List.cons_append]
            exact prefixOf_sep_cons (jsDotChar_ne_nl (ht x hx)) _
    · cases a₁ with
      | nil => exact absurd rfl hne1
      | cons x a2 =>
        have hx : x ∈ c := hsufc.subset (by simp)
        have htok : tokenChar x = true := by
          have hall := hc.2
          rw [List.all_eq_true] at hall
          exact hall x hx
        rw [List.cons_append, List.cons_append]
        exact prefixOf_sep_cons (tokenChar_ne_nl htok) _


theorem splitOnSepAux_nil (sep : Str) (fuel : Nat) : splitOnSepAux sep fuel [] = [[]] := by
  cases fuel <;> rfl

theorem splitOnSepAux_fuel {sep : Str} :
    ∀ {f1 : Nat} {s : Str} (f2 : Nat), s.length ≤ f1 → s.length ≤ f2 →
    splitOnSepAux sep f1 s = splitOnSepAux sep f2 s := by
  intro f1
  induction f1 with
  | zero =>
    intro s f2 h1 _
    have hs : s = [] := by
      cases s with
      | nil => rfl
      | cons c cs => simp at h1
    subst hs
    rw [splitOnSepAux_nil, splitOnSepAux_nil]
  | succ f ih =>
    intro s f2 h1 h2
    cases s with
    | nil => rw [splitOnSepAux_nil, splitOnSepAux_nil]
    | cons c cs =>
      obtain ⟨g, rfl⟩ : ∃ g, f2 = g + 1 := by
        cases f2 with
        | zero => simp at h2
        | succ g => exact ⟨g, rfl⟩
      show (if sep ≠ [] ∧ prefixOf sep (c :: cs) = true then
          [] :: splitOnSepAux sep f ((c :: cs).drop sep.length)
        else match splitOnSepAux sep f cs with
          | [] => [[c]]
          | s :: ss => (c :: s) :: ss) =
        (if sep ≠ [] ∧ prefixOf sep (c :: cs) = true then
          [] :: splitOnSepAux sep g ((c :: cs).drop sep.length)
        else match splitOnSepAux sep g cs with
          | [] => [[c]]
          | s :: ss => (c :: s) :: ss)
      by_cases hc : sep ≠ [] ∧ prefixOf sep (c :: cs) = true
      · rw [if_pos hc, if_pos hc]
        have hlen : ((c :: cs).drop sep.length).length ≤ f := by
          have hsp : 1 ≤ sep.length := by
            cases hsep : sep with
            | nil => exact absurd hsep hc.1
            | cons a as => simp
          simp only [List.length_drop, List.length_cons] at h1 ⊢
          omega
        have hlen2 : ((c :: cs).drop sep.length).length ≤ g := by
          have hsp : 1 ≤ sep.length := by
            cases hsep : sep with
            | nil => exact absurd hsep hc.1
            | cons a as => simp
          simp only [List.length_drop, List.length_cons] at h2 ⊢
          omega
        rw [ih g hlen hlen2]
      · rw [if_neg hc, if_neg hc]
        have hl1 : cs.length ≤ f := by simp at h1; omega
        have hl2 : cs.length ≤ g := by simp at h2; omega
        rw [ih g hl1 hl2]

theorem splitOnSep_no_occ {sep l : Str} (hl : noOccNE sep l []) :
    splitOnSep sep l = [l] := by
  show splitOnSepAux sep l.length l = [l]
  induction l with
  | nil => rfl
  | cons c cs ih =>
    have hfalse : prefixOf sep (c :: cs) = false := by
      have h0 := hl (c :: cs) (by simp) (List.suffix_refl _)
      simpa using h0
    show (if sep ≠ [] ∧ prefixOf sep (c :: cs) = true then
        [] :: splitOnSepAux sep cs.length ((c :: cs).drop sep.length)
      else match splitOnSepAux sep cs.length cs with
        | [] => [[c]]
        | s :: ss => (c :: s) :: ss) = [c :: cs]
    rw [if_neg (by simp [hfalse])]
    have ihr : splitOnSepAux sep cs.length cs = [cs] :=
      ih (fun u hu hs => hl u hu (hs.trans (List.suffix_cons _ _)))
    rw [ihr]

theorem splitOnSep_step {sep l rest : Str} (hsep : sep ≠ [])
    (hl : noOccNE sep l (sep ++ rest)) :
    splitOnSep sep (l ++ sep ++ rest) = l :: splitOnSep sep rest := by
  have hsp : 1 ≤ sep.length := by
    cases hs : sep with
    | nil => exact absurd hs hsep
    | cons a as => simp
  induction l with
  | nil =>
    obtain ⟨s0, sp, rfl⟩ := List.exists_cons_of_ne_nil hsep
    simp only [List.nil_append]
    show (if (s0 :: sp) ≠ [] ∧ prefixOf (s0 :: sp) (s0 :: (sp ++ rest)) = true then
        [] :: splitOnSepAux (s0 :: sp) (sp ++ rest).length
          ((s0 :: (sp ++ rest)).drop (s0 :: sp).length)
      else match splitOnSepAux (s0 :: sp) (sp ++ rest).length (sp ++ rest) with
        | [] => [[s0]]
        | s :: ss => (s0 :: s) :: ss) = [] :: splitOnSep (s0 :: sp) rest
    rw [if_pos ⟨hsep, by rw [← List.cons_append]; exact prefixOf_append_self _ _⟩]
    rw [← List.cons_append, List.drop_left]
    rw [splitOnSepAux_fuel rest.length (by simp) le_rfl]
    rfl
  | cons c l ih =>
    have hfalse : prefixOf sep (c :: (l ++ (sep ++ rest))) = false := by
      have h0 := hl (c :: l) (by simp) (List.suffix_refl _)
      simpa [List.append_assoc] using h0
    rw [List.append_assoc]
    show (if sep ≠ [] ∧ prefixOf sep (c :: (l ++ (sep ++ rest))) = true then
        [] :: splitOnSepAux sep (l ++ (sep ++ rest)).length
          ((c :: (l ++ (sep ++ rest))).drop sep.length)
      else match splitOnSepAux sep (l ++ (sep ++ rest)).length (l ++ (sep ++ rest)) with
        | [] => [[c]]
        | s :: ss => (c :: s) :: ss) = (c :: l) :: splitOnSep sep rest
    rw [if_neg (by simp [hfalse])]
    have hih0 := ih (fun u hu hs => hl u hu (hs.trans (List.suffix_cons _ _)))
    rw [List.append_assoc] at hih0
    have hih : splitOnSepAux sep (l ++ (sep ++ rest)).length (l ++ (sep ++ rest)) =
        l :: splitOnSep sep rest := hih0
    rw [hih]

theorem split_join_items {ps : List (Str × Str)}
    (h : ∀ p ∈ ps, valid6 p.1 ∧ (∀ x ∈ p.2, jsDotChar x = true) ∧ p.2 ≠ str "<000000>")
    (hps : ps ≠ []) :
    splitOnSep sepStr (joinSep sepStr (ps.map itemOf)) = ps.map itemOf := by
  induction ps with
  | nil => exact absurd rfl hps
  | cons p ps ih =>
    obtain ⟨hv, hdot, hnesep⟩ := h p (by simp)
    cases ps with
    | nil =>
      have hone : joinSep sepStr [itemOf p] = itemOf p := rfl
      show splitOnSep sepStr (joinSep sepStr [itemOf p]) = [itemOf p]
      rw [hone]
      exact splitOnSep_no_occ (by
        have h0 := item_noOcc hv hdot hnesep (Or.inl rfl)
        intro u hu hs
        have h1 := h0 u hu hs
        simpa using h1)
    | cons q ps2 =>
      rw [List.map_cons, List.map_cons]
      have hjoin : joinSep sepStr (itemOf p :: itemOf q :: List.map itemOf ps2) =
          itemOf p ++ sepStr ++ joinSep sepStr (itemOf q :: List.map itemOf ps2) := rfl
      rw [hjoin]
      rw [splitOnSep_step (by rw [sepStr_eq]; simp)
        (item_noOcc hv hdot hnesep (Or.inr ⟨_, by rw [sepStr_eq, List.cons_append]⟩))]
      have hih := ih (fun p2 hp2 => h p2 (by simp [hp2])) (by simp)
      rw [List.map_cons] at hih
      rw [hih]

theorem jsTrimAux_nil (fuel : Nat) (b : Bool) : jsTrimAux fuel [] b = [] := by
  cases fuel <;> rfl

theorem jsTrimAux_caret_step (fuel : Nat) (c : Char) (cs : Str)
    (hm : (matchAtCaret (c :: cs)).2 ≠ 0) :
    jsTrimAux (fuel + 1) (c :: cs) true =
      (matchAtCaret (c :: cs)).1 ++
        jsTrimAux fuel ((c :: cs).drop (matchAtCaret (c :: cs)).2)
          (lineTerm ((c :: cs).getD ((matchAtCaret (c :: cs)).2 - 1) c)) := by
  rw [jsTrimAux]
  simp only [if_true, hm, if_neg hm]
  simp

theorem jsTrimAux_nocaret_step (fuel : Nat) (c : Char) (cs : Str) :
    jsTrimAux (fuel + 1) (c :: cs) false = c :: jsTrimAux fuel cs (lineTerm c) := by
  rw [jsTrimAux]
  simp only [Bool.false_eq_true, if_false]

theorem bestK_nil : bestK [] = 0 := rfl

theorem bestK_nl {d : Char} {rs : Str} (hd : jsWS d = false) :
    bestK ('\n' :: d :: rs) = 0 := by
  have hR : ('\n' :: d :: rs).takeWhile jsWS = ['\n'] := by
    rw [List.takeWhile_cons, if_pos (by decide), List.takeWhile_cons, if_neg (by simp [hd])]
  simp only [bestK, hR]
  rw [if_neg (by simp)]
  simp [List.range_succ]

theorem matchAtCaret_line {l r : Str} (hl : goodLine l)
    (hr : r = [] ∨ ∃ d rs, r = '\n' :: d :: rs ∧ jsWS d = false) :
    matchAtCaret (l ++ r) = (l, l.length) := by
  cases l with
  | nil => exact absurd hl (by simp [goodLine])
  | cons c cs =>
    obtain ⟨hcws, hdot⟩ := hl
    have hA : (c :: cs ++ r).dropWhile jsWS = c :: cs ++ r :=
      dropWhile_cons_stop hcws
    rcases hr with rfl | ⟨d, rs, rfl, hd⟩
    · have hB : ((c :: cs) ++ []).takeWhile jsDotChar = (c :: cs) ++ [] := by
        rw [List.append_nil]; exact takeWhile_all hdot
      have hB2 : ((c :: cs) ++ []).dropWhile jsDotChar = [] := by
        rw [List.append_nil]; exact dropWhile_all hdot
      simp only [matchAtCaret]
      rw [List.cons_append] at hA hB hB2 ⊢
      rw [hA, hB, hB2, bestK_nil]
      simp
    · have hB : ((c :: cs) ++ '\n' :: d :: rs).takeWhile jsDotChar = c :: cs :=
        takeWhile_append_stop hdot (by decide)
      have hB2 : ((c :: cs) ++ '\n' :: d :: rs).dropWhile jsDotChar = '\n' :: d :: rs :=
        dropWhile_append_stop hdot (by decide)
      simp only [matchAtCaret]
      rw [List.cons_append] at hA hB hB2 ⊢
      rw [hA, hB, hB2, bestK_nl hd]
      simp

theorem goodLine_ne {l : Str} (h : goodLine l) : l ≠ [] := by
  cases l with
  | nil => exact absurd h (by simp [goodLine])
  | cons c cs => simp

theorem goodLine_dot {l : Str} (h : goodLine l) : ∀ x ∈ l, jsDotChar x = true := by
  cases l with
  | nil => exact absurd h (by simp [goodLine])
  | cons c cs => exact h.2
theorem trim_aux_good (L : List Str) (h : ∀ l ∈ L, goodLine l) :
    ∀ fuel, (joinSep ['\n'] L).length ≤ fuel →
    jsTrimAux fuel (joinSep ['\n'] L) true = joinSep ['\n'] L := by
  induction L with
  | nil => intro fuel _; exact jsTrimAux_nil fuel true
  | cons l L ihL =>
    intro fuel hfuel
    have hgl : goodLine l := h l (by simp)
    cases L with
    | nil =>
      have hj : joinSep ['\n'] [l] = l := rfl
      rw [hj] at hfuel ⊢
      cases l with
      | nil => exact absurd hgl (by simp [goodLine])
      | cons c cs =>
        have hmc : matchAtCaret (c :: cs) = (c :: cs, (c :: cs).length) := by
          have h0 := matchAtCaret_line hgl (Or.inl rfl)
          simpa using h0
        cases fuel with
        | zero => simp at hfuel
        | succ f =>
          rw [jsTrimAux_caret_step f c cs (by rw [hmc]; simp)]
          rw [hmc]
          simp [List.drop_length, jsTrimAux_nil]
    | cons l2 L2 =>
      obtain ⟨d, ds, hl2⟩ : ∃ d ds, l2 = d :: ds := by
        have hne := goodLine_ne (h l2 (by simp))
        cases l2 with
        | nil => exact absurd rfl hne
        | cons d ds => exact ⟨_, _, rfl⟩
      obtain ⟨tail, htail⟩ : ∃ tail, joinSep ['\n'] (l2 :: L2) = d :: tail := by
        cases L2 with
        | nil => exact ⟨ds, by rw [hl2]; rfl⟩
        | cons l3 L3 => exact ⟨_, by rw [hl2]; rfl⟩
      have hds : jsWS d = false := by
        have hg2 := h l2 (by simp)
        rw [hl2] at hg2; exact hg2.1
      have hj : joinSep ['\n'] (l :: l2 :: L2) = l ++ '\n' :: joinSep ['\n'] (l2 :: L2) := by
        show l ++ ['\n'] ++ joinSep ['\n'] (l2 :: L2) = _
        rw [List.append_assoc]; rfl
      rw [hj] at hfuel ⊢
      cases l with
      | nil => exact absurd hgl (by simp [goodLine])
      | cons c cs =>
        have hmc : matchAtCaret ((c :: cs) ++ '\n' :: joinSep ['\n'] (l2 :: L2)) =
            (c :: cs, (c :: cs).length) := by
          rw [htail]
          exact matchAtCaret_line hgl (Or.inr ⟨d, tail, rfl, hds⟩)
        rw [List.cons_append] at hmc
        have hlen : ((c :: cs) ++ '\n' :: joinSep ['\n'] (l2 :: L2)).length =
            cs.length + 2 + (joinSep ['\n'] (l2 :: L2)).length := by
          simp [List.length_append]; omega
        cases fuel with
        | zero =>
          rw [List.cons_append] at hfuel; simp at hfuel
        | succ f =>
          rw [List.cons_append, jsTrimAux_caret_step f c (cs ++ '\n' :: joinSep ['\n'] (l2 :: L2)) (by rw [hmc]; simp)]
          rw [hmc]
          have hdrop : (c :: (cs ++ '\n' :: joinSep ['\n'] (l2 :: L2))).drop (c :: cs).length =
              '\n' :: joinSep ['\n'] (l2 :: L2) := by
            rw [← List.cons_append, List.drop_left]
          have hgetD : (c :: (cs ++ '\n' :: joinSep ['\n'] (l2 :: L2))).getD ((c :: cs).length - 1) c =
              (c :: cs).getD ((c :: cs).length - 1) c := by
            rw [← List.cons_append]
            exact List.getD_append _ _ _ _ (by simp)
          have hlast : lineTerm ((c :: cs).getD ((c :: cs).length - 1) c) = false := by
            have hlt : (c :: cs).length - 1 < (c :: cs).length := by simp
            rw [List.getD_eq_getElem _ _ hlt]
            exact lineTerm_eq_false_of_dot (goodLine_dot hgl _ (List.getElem_mem hlt))
          rw [hdrop, hgetD, hlast]
          have hfge : cs.length + 1 + (joinSep ['\n'] (l2 :: L2)).length ≤ f := by
            rw [List.cons_append] at hfuel
            simp [List.length_append] at hfuel
            omega
          obtain ⟨f2, rfl⟩ : ∃ f2, f = f2 + 1 := by
            have h1 : 1 ≤ (joinSep ['\n'] (l2 :: L2)).length := by rw [htail]; simp
            cases f with
            | zero => omega
            | succ f2 => exact ⟨f2, rfl⟩
          rw [jsTrimAux_nocaret_step f2 '\n' (joinSep ['\n'] (l2 :: L2))]
          have hnl : lineTerm '\n' = true := by decide
          rw [hnl]
          rw [ihL (fun x hx => h x (by simp [hx])) f2 (by omega)]
          rw [List.cons_append]

theorem jsTrimLines_good {L : List Str} (h : ∀ l ∈ L, goodLine l) :
    jsTrimLines (joinSep ['\n'] L) = joinSep ['\n'] L :=
  trim_aux_good L h _ le_rfl

theorem payload_lines (ps : List (Str × Str)) :
    joinSep sepStr (ps.map itemOf) = joinSep ['\n'] (linesOf ps) := by
  induction ps with
  | nil => rfl
  | cons p ps ih =>
    cases ps with
    | nil =>
      show itemOf p = joinSep ['\n'] [codeLine p.1, p.2]
      have h1 : joinSep ['\n'] [codeLine p.1, p.2] = (codeLine p.1 ++ ['\n']) ++ p.2 := rfl
      rw [h1]
      simp [itemOf, codeLine, List.append_assoc]
    | cons q ps2 =>
      obtain ⟨z, zs, hz⟩ : ∃ z zs, linesOf (q :: ps2) = z :: zs := by
        cases ps2 with
        | nil => exact ⟨_, _, rfl⟩
        | cons r rs => exact ⟨_, _, rfl⟩
      have hL : joinSep sepStr ((p :: q :: ps2).map itemOf) =
          itemOf p ++ sepStr ++ joinSep sepStr ((q :: ps2).map itemOf) := rfl
      have hR : joinSep ['\n'] (linesOf (p :: q :: ps2)) =
          ((codeLine p.1 ++ ['\n']) ++ ((p.2 ++ ['\n']) ++ ((str "<000000>" ++ ['\n']) ++
            joinSep ['\n'] (linesOf (q :: ps2))))) := by
        show joinSep ['\n'] (codeLine p.1 :: p.2 :: str "<000000>" :: linesOf (q :: ps2)) = _
        rw [hz]
        rfl
      rw [hL, hR, ih]
      simp [itemOf, codeLine, sepStr_eq, List.append_assoc]

theorem linesOf_good {ps : List (Str × Str)}
    (h : ∀ p ∈ ps, valid6 p.1 ∧ goodLine p.2) :
    ∀ l ∈ linesOf ps, goodLine l := by
  have hcode : ∀ c : Str, valid6 c → goodLine (codeLine c) := by
    intro c hc
    refine ⟨by decide, ?_⟩
    intro x hx
    rcases List.mem_cons.mp hx with rfl | hx2
    · decide
    · rcases List.mem_append.mp hx2 with hx3 | hx3
      · exact jsDotChar_of_tokenChar (by
          have hall := hc.2
          rw [List.all_eq_true] at hall
          exact hall x hx3)
      · have hgt := List.mem_singleton.mp hx3
        rw [hgt]; decide
  induction ps with
  | nil => intro l hl; exact absurd hl (by simp [linesOf])
  | cons p ps ih =>
    obtain ⟨hv, hg⟩ := h p (by simp)
    cases ps with
    | nil =>
      intro l hl
      rcases List.mem_cons.mp hl with rfl | hl2
      · exact hcode p.1 hv
      · have hp2 := List.mem_singleton.mp hl2
        rw [hp2]; exact hg
    | cons q ps2 =>
      intro l hl
      rcases List.mem_cons.mp hl with rfl | hl2
      · exact hcode p.1 hv
      · rcases List.mem_cons.mp hl2 with rfl | hl3
        · exact hg
        · rcases List.mem_cons.mp hl3 with rfl | hl4
          · exact ⟨by decide, by decide⟩
          · exact ih (fun p2 hp2 => h p2 (by simp [hp2])) l hl4

theorem translateQueue_echo {ps : List (Str × Str)}
    (h : ∀ p ∈ ps, valid6 p.1 ∧ goodLine p.2 ∧ p.2 ≠ str "<000000>")
    (template lang : Str) :
    translateQueue (fun _ => some (joinSep sepStr (ps.map itemOf))) template lang
      (ps.map itemOf) = ps.map itemOf := by
  by_cases hps : ps = []
  · subst hps; rfl
  · have hpay : joinSep sepStr (ps.map itemOf) ≠ [] := by
      cases ps with
      | nil => exact absurd rfl hps
      | cons p ps2 =>
        cases ps2 with
        | nil =>
          show joinSep sepStr [itemOf p] ≠ []
          have h1 : joinSep sepStr [itemOf p] = itemOf p := rfl
          rw [h1]
          simp [itemOf]
        | cons q ps3 =>
          show itemOf p ++ sepStr ++ joinSep sepStr ((q :: ps3).map itemOf) ≠ []
          simp [itemOf]
    show (if joinSep sepStr (ps.map itemOf) = [] then ps.map itemOf
      else splitOnSep sepStr (jsTrimLines (joinSep sepStr (ps.map itemOf)))) = ps.map itemOf
    rw [if_neg hpay]
    rw [payload_lines,
      jsTrimLines_good (linesOf_good (fun p hp => ⟨(h p hp).1, (h p hp).2.1⟩)),
      ← payload_lines,
      split_join_items (fun p hp =>
        ⟨(h p hp).1, goodLine_dot (h p hp).2.1, (h p hp).2.2⟩) hps]

theorem firstTokenMatch_item {c t : Str} (hc : valid6 c) :
    firstTokenMatch (itemOf (c, t)) = some (c, t.takeWhile jsDotChar) := by
  have hmt : matchTokenAt ('<' :: (c ++ '>' :: '\n' :: t)) =
      some (c, t.takeWhile jsDotChar) := by
    simp only [matchTokenAt]
    have htake : (c ++ '>' :: '\n' :: t).take 6 = c := by
      rw [← hc.1]; exact List.take_left _ _
    have hdrop : (c ++ '>' :: '\n' :: t).drop 6 = '>' :: '\n' :: t := by
      rw [← hc.1]; exact List.drop_left _ _
    rw [htake, hdrop, if_pos ⟨hc.1, hc.2⟩]
    rfl
  show firstTokenMatch ('<' :: (c ++ '>' :: '\n' :: t)) = _
  rw [firstTokenMatch, hmt]

theorem translatedToCues_cons_item {p : Str × Str} {rest : List Str}
    (hfirst : firstTokenMatch (itemOf p) = some (p.1, p.2))
    (hcne : p.1 ≠ []) (hne : p.2 ≠ []) :
    translatedToCues (itemOf p :: rest) =
      (translatedToCues rest).map (fun l => p :: l) := by
  rw [translatedToCues, hfirst]
  cases htc : translatedToCues rest with
  | none => rfl
  | some l =>
    show (if p.1 = [] ∨ p.2 = [] then some l else some ((p.1, p.2) :: l)) = _
    rw [if_neg (by simp [hcne, hne])]
    simp

theorem translatedToCues_items {ps : List (Str × Str)}
    (h : ∀ p ∈ ps, valid6 p.1 ∧ p.2 ≠ [] ∧ ∀ x ∈ p.2, jsDotChar x = true) :
    translatedToCues (ps.map itemOf) = some ps := by
  induction ps with
  | nil => rfl
  | cons p ps ih =>
    obtain ⟨hv, hne, hdot⟩ := h p (by simp)
    have hfirst : firstTokenMatch (itemOf p) = some (p.1, p.2) := by
      have h0 := @firstTokenMatch_item p.1 p.2 hv
      rw [takeWhile_all hdot] at h0
      exact h0
    have hcne : p.1 ≠ [] := by
      intro hcc
      have h6 := hv.1
      rw [hcc] at h6
      simp at h6
    rw [List.map_cons, translatedToCues_cons_item hfirst hcne hne,
      ih (fun p2 hp2 => h p2 (by simp [hp2]))]
    rfl
theorem mapGet_eq_none {entries : List (Str × Str)} {k : Str}
    (h : k ∉ entries.map Prod.fst) : mapGet entries k = none := by
  rw [mapGet]
  have hf : entries.reverse.find? (fun p => p.1 == k) = none := by
    rw [List.find?_eq_none]
    intro p hp
    simp only [beq_iff_eq]
    intro hpk
    exact h (List.mem_map.mpr ⟨p, List.mem_reverse.mp hp, hpk⟩)
  rw [hf]

theorem mapGet_mem {entries : List (Str × Str)} {k v : Str}
    (hnd : (entries.map Prod.fst).Nodup) (hmem : (k, v) ∈ entries) :
    mapGet entries k = some v := by
  induction entries with
  | nil => simp at hmem
  | cons p rest ih =>
    rw [List.map_cons, List.nodup_cons] at hnd
    rw [mapGet, List.reverse_cons, List.find?_append]
    rcases List.mem_cons.mp hmem with heq | hmem2
    · have hnone : rest.reverse.find? (fun q => q.1 == k) = none := by
        rw [List.find?_eq_none]
        intro q hq
        simp only [beq_iff_eq]
        intro hqk
        apply hnd.1
        rw [← heq]
        exact List.mem_map.mpr ⟨q, List.mem_reverse.mp hq, by rw [hqk]⟩
      rw [hnone]
      simp [← heq]
    · have hr := ih hnd.2 hmem2
      rw [mapGet] at hr
      cases hfind : rest.reverse.find? (fun q => q.1 == k) with
      | none => rw [hfind] at hr; simp at hr
      | some q =>
        rw [hfind] at hr
        simp only [Option.some.injEq] at hr
        show some q.2 = some v
        rw [hr]

theorem prepare_apply (parsed : List TaggedNode) (ts : List (Str × Str)) :
    prepareOutput (applyTranslationCues parsed ts) = parsed.map (outNodeOf ts) := by
  rw [applyTranslationCues, prepareOutput, List.map_map]
  apply List.map_congr_left
  intro n _
  show (match mapGet ts n.code, n.data with
    | some t, some d =>
      if t = [] ∨ n.type ≠ str "cue" then
        (⟨n.type, some n.code, some (mapGet ts n.code), n.data⟩ : OutNode)
      else ⟨n.type, none, none, some ⟨d.startTime, d.endTime, t⟩⟩
    | _, _ => ⟨n.type, some n.code, some (mapGet ts n.code), n.data⟩) = outNodeOf ts n
  rw [outNodeOf]
  cases hmg : mapGet ts n.code with
  | none => rfl
  | some t => cases hd : n.data with
    | none => rfl
    | some d => rfl

theorem cueLines_eq (parsed : List TaggedNode) :
    cueLines parsed = (tPairs parsed).map itemOf := by
  rw [cueLines, tPairs, List.map_filterMap]
  induction parsed with
  | nil => rfl
  | cons n rest ih =>
    rw [List.filterMap_cons, List.filterMap_cons]
    by_cases hc : n.type = str "cue" ∧ dataText n.data ≠ []
    · rw [cueLine, if_pos hc, if_pos hc]
      show _ = itemOf (n.code, dataText n.data) :: _
      rw [itemOf, ih]
    · rw [cueLine, if_neg hc, if_neg hc]
      exact ih

theorem tPairs_mem {parsed : List TaggedNode} {p : Str × Str}
    (hp : p ∈ tPairs parsed) :
    ∃ n ∈ parsed, n.type = str "cue" ∧ dataText n.data ≠ [] ∧
      p = (n.code, dataText n.data) := by
  rw [tPairs] at hp
  obtain ⟨n, hn, he⟩ := List.mem_filterMap.mp hp
  by_cases hc : n.type = str "cue" ∧ dataText n.data ≠ []
  · rw [if_pos hc] at he
    exact ⟨n, hn, hc.1, hc.2, (Option.some.injEq _ _ ▸ he).symm⟩
  · rw [if_neg hc] at he
    exact absurd he (by simp)

theorem tPairs_keys_sublist (parsed : List TaggedNode) :
    ((tPairs parsed).map Prod.fst).Sublist (parsed.map TaggedNode.code) := by
  induction parsed with
  | nil => simp [tPairs]
  | cons n rest ih =>
    simp only [tPairs, List.filterMap_cons, List.map_cons] at ih ⊢
    by_cases hc : n.type = str "cue" ∧ dataText n.data ≠ []
    · rw [if_pos hc]
      exact List.Sublist.cons₂ _ ih
    · rw [if_neg hc]
      exact List.Sublist.cons _ ih

theorem parseFile_map_code (nodes : List SubNode) (code : Nat → Str) :
    (parseFile nodes code).map TaggedNode.code = (List.range nodes.length).map code := by
  rw [parseFile, List.map_map]
  have hcomp : (TaggedNode.code ∘ fun p : Nat × SubNode =>
      (⟨p.2.type, code p.1, p.2.data⟩ : TaggedNode)) = code ∘ Prod.fst := rfl
  rw [hcomp, ← List.map_map, List.enum_map_fst]

theorem parseFile_view (nodes : List SubNode) (code : Nat → Str) :
    (parseFile nodes code).map (fun n => (n.type, n.data)) = nodes.map inView := by
  rw [parseFile, List.map_map]
  have hcomp : ((fun n : TaggedNode => (n.type, n.data)) ∘ fun p : Nat × SubNode =>
      (⟨p.2.type, code p.1, p.2.data⟩ : TaggedNode)) = inView ∘ Prod.snd := rfl
  rw [hcomp, ← List.map_map, List.enum_map_snd]

theorem parseFile_mem {nodes : List SubNode} {code : Nat → Str} {n : TaggedNode}
    (hn : n ∈ parseFile nodes code) :
    ∃ i sn, nodes.get? i = some sn ∧ n = ⟨sn.type, code i, sn.data⟩ := by
  rw [parseFile] at hn
  obtain ⟨p, hp, he⟩ := List.mem_map.mp hn
  exact ⟨p.1, p.2, List.mem_enum_iff_get?.mp hp, he.symm⟩

theorem parseFile_code_nodup {nodes : List SubNode} {code : Nat → Str}
    (hinj : ∀ i j, i < nodes.length → j < nodes.length → code i = code j → i = j) :
    ((parseFile nodes code).map TaggedNode.code).Nodup := by
  rw [parseFile_map_code]
  exact List.Nodup.map_on
    (fun i hi j hj he => hinj i j (List.mem_range.mp hi) (List.mem_range.mp hj) he)
    (List.nodup_range _)

theorem outNodeOf_translatable {parsed : List TaggedNode} {n : TaggedNode} {d : CueData}
    (hnd : ((parsed.map TaggedNode.code)).Nodup) (hn : n ∈ parsed)
    (htype : n.type = str "cue") (hd : n.data = some d) (htext : d.text ≠ []) :
    mapGet (tPairs parsed) n.code = some d.text ∧
      outNodeOf (tPairs parsed) n = ⟨n.type, none, none, some d⟩ := by
  have hkeys : ((tPairs parsed).map Prod.fst).Nodup :=
    (tPairs_keys_sublist parsed).nodup hnd
  have hdt : dataText n.data = d.text := by rw [hd]; rfl
  have hmem : (n.code, d.text) ∈ tPairs parsed := by
    rw [tPairs]
    apply List.mem_filterMap.mpr
    refine ⟨n, hn, ?_⟩
    rw [if_pos ⟨htype, by rw [hdt]; exact htext⟩, hdt]
  have hmg := mapGet_mem hkeys hmem
  refine ⟨hmg, ?_⟩
  rw [outNodeOf, hmg, hd]
  show (if d.text = [] ∨ n.type ≠ str "cue" then
      (⟨n.type, some n.code, some (some d.text), some d⟩ : OutNode)
    else ⟨n.type, none, none, some ⟨d.startTime, d.endTime, d.text⟩⟩) =
    ⟨n.type, none, none, some d⟩
  rw [if_neg (by simp [htext, htype])]

theorem outNodeOf_passthrough {parsed : List TaggedNode} {n : TaggedNode}
    (hnd : ((parsed.map TaggedNode.code)).Nodup) (hn : n ∈ parsed)
    (hnt : ¬(n.type = str "cue" ∧ dataText n.data ≠ [])) :
    mapGet (tPairs parsed) n.code = none ∧
      outNodeOf (tPairs parsed) n = ⟨n.type, some n.code, some none, n.data⟩ := by
  have hkey : n.code ∉ (tPairs parsed).map Prod.fst := by
    intro hk
    obtain ⟨p, hp, hpe⟩ := List.mem_map.mp hk
    obtain ⟨n2, hn2, ht2, hd2, hpe2⟩ := tPairs_mem hp
    have hcode_eq : n2.code = n.code := by rw [hpe2] at hpe; exact hpe
    have hnn : n2 = n := List.inj_on_of_nodup_map hnd hn2 hn hcode_eq
    rw [hnn] at ht2 hd2
    exact hnt ⟨ht2, hd2⟩
  have hmg := mapGet_eq_none hkey
  refine ⟨hmg, ?_⟩
  rw [outNodeOf, hmg]

theorem views_restore {parsed : List TaggedNode}
    (hnd : (parsed.map TaggedNode.code).Nodup) :
    (parsed.map (outNodeOf (tPairs parsed))).map outView =
      parsed.map (fun n => (n.type, n.data)) := by
  rw [List.map_map]
  apply List.map_congr_left
  intro n hn
  show outView (outNodeOf (tPairs parsed) n) = (n.type, n.data)
  by_cases hc : n.type = str "cue" ∧ dataText n.data ≠ []
  · obtain ⟨ht, hdt⟩ := hc
    obtain ⟨d, hd⟩ : ∃ d, n.data = some d := by
      cases hdd : n.data with
      | none => rw [hdd] at hdt; simp [dataText] at hdt
      | some d => exact ⟨d, rfl⟩
    have htext : d.text ≠ [] := by rw [hd] at hdt; exact hdt
    rw [(outNodeOf_translatable hnd hn ht hd htext).2, outView, hd]
  · rw [(outNodeOf_passthrough hnd hn hc).2, outView]

theorem slices_join {α : Type} (b : Nat) (hb : 1 ≤ b) :
    ∀ (m : Nat) (l : List α), l.length ≤ b * m →
    ((List.range m).map (fun i => (l.drop (i * b)).take b)).flatten = l := by
  intro m
  induction m with
  | zero =>
    intro l hl
    have hl0 : l = [] := List.eq_nil_of_length_eq_zero (by omega)
    subst hl0
    rfl
  | succ m ih =>
    intro l hl
    rw [List.range_succ_eq_map, List.map_cons, List.map_map, List.flatten_cons]
    have hz : (l.drop (0 * b)).take b = l.take b := by simp
    have hcongr : (List.range m).map ((fun i => (l.drop (i * b)).take b) ∘ Nat.succ) =
        (List.range m).map (fun i => ((l.drop b).drop (i * b)).take b) := by
      apply List.map_congr_left
      intro i _
      show ((l.drop (i.succ * b)).take b) = _
      rw [List.drop_drop, Nat.succ_mul, Nat.add_comm]
    have hdl : (l.drop b).length ≤ b * m := by
      have hms : b * (m + 1) = b * m + b := by ring
      simp only [List.length_drop]
      omega
    rw [hz, hcongr, ih (l.drop b) hdl]
    exact List.take_append_drop b l
  
theorem ceil_mul_ge (n b : Nat) (hb : 1 ≤ b) : n ≤ b * ((n + b - 1) / b) := by
  have h1 := Nat.div_add_mod (n + b - 1) b
  have h2 := Nat.mod_lt (n + b - 1) (show 0 < b by omega)
  omega

theorem ceil_le_floor_succ (n b : Nat) (hb : 1 ≤ b) : (n + b - 1) / b ≤ n / b + 1 := by
  have h3 : n + b - 1 ≤ n + b := by omega
  have h4 := @Nat.div_le_div_right _ _ b h3
  have h5 := Nat.add_div_right n (show 0 < b by omega)
  omega

theorem batch_size_exact {α : Type} {b : Nat} (hb : 1 ≤ b) {l : List α} {i : Nat}
    (hi : i + 1 < (l.length + b - 1) / b) :
    ((l.drop (i * b)).take b).length = b := by
  have hle : i + 1 ≤ l.length / b := by
    have := ceil_le_floor_succ l.length b hb
    omega
  have hmul : (i + 1) * b ≤ l.length := (Nat.le_div_iff_mul_le (by omega)).mp hle
  rw [Nat.succ_mul] at hmul
  simp [List.length_take, List.length_drop]
  omega

theorem translateQueue_fail (template lang : Str) (q : List Str) :
    translateQueue (fun _ => none) template lang q = q := rfl

theorem foldl_translate {transport : Str → Option Str} {template lang : Str} :
    ∀ (qs : List (List Str)) (acc : List Str),
    (∀ q ∈ qs, translateQueue transport template lang q = q) →
    qs.foldl (fun a q => a ++ translateQueue transport template lang q) acc =
      acc ++ qs.flatten := by
  intro qs
  induction qs with
  | nil => intro acc _; simp
  | cons q qs ih =>
    intro acc h
    rw [List.foldl_cons, h q (by simp),
      ih (acc ++ q) (fun q2 hq2 => h q2 (by simp [hq2])), List.flatten_cons,
      List.append_assoc]

theorem translateQueues_id {transport : Str → Option Str} {template lang : Str}
    {qs : List (List Str)}
    (h : ∀ q ∈ qs, translateQueue transport template lang q = q) :
    translateQueues transport template lang qs = qs.flatten := by
  rw [translateQueues, foldl_translate qs [] h]
  simp

theorem getMessageQueue_pos (parsed : List TaggedNode) {b : Int} (hb : 1 ≤ b) :
    getMessageQueue parsed b =
      some ((List.range (((cueLines parsed).length + b.toNat - 1) / b.toNat)).map
        (fun i => ((cueLines parsed).drop (i * b.toNat)).take b.toNat)) := by
  rw [getMessageQueue, if_pos hb]

theorem getMessageQueue_join (parsed : List TaggedNode) {b : Int} (hb : 1 ≤ b) :
    ∃ qs, getMessageQueue parsed b = some qs ∧ qs.flatten = cueLines parsed := by
  refine ⟨_, getMessageQueue_pos parsed hb, ?_⟩
  exact slices_join b.toNat (by omega) _ _ (ceil_mul_ge _ _ (by omega))

theorem getMessageQueue_single {parsed : List TaggedNode} {b : Int} (hb : 1 ≤ b)
    (hlen : (cueLines parsed).length ≤ b.toNat) (hne : cueLines parsed ≠ []) :
    getMessageQueue parsed b = some [cueLines parsed] := by
  rw [getMessageQueue_pos parsed hb]
  have hpos : 1 ≤ (cueLines parsed).length := by
    cases hcl : cueLines parsed with
    | nil => exact absurd hcl hne
    | cons x xs => simp
  have hm : ((cueLines parsed).length + b.toNat - 1) / b.toNat = 1 := by
    apply Nat.div_eq_of_lt_le
    · omega
    · have hb1 : 1 ≤ b.toNat := by omega
      omega
  rw [hm]
  have hr1 : List.range 1 = [0] := rfl
  rw [hr1, List.map_cons, List.map_nil]
  simp [List.take_of_length_le hlen]

theorem runPipeline_eq {transport : Str → Option Str} {template lang : Str}
    {b : Int} {nodes : List SubNode} {code : Nat → Str} {qs : List (List Str)}
    {pairs : List (Str × Str)}
    (hq : getMessageQueue (parseFile nodes code) b = some qs)
    (htc : translatedToCues (translateQueues transport template lang qs) = some pairs) :
    runPipeline transport template lang b nodes code =
      some (prepareOutput (applyTranslationCues (parseFile nodes code) pairs)) := by
  simp only [runPipeline, hq, htc]

theorem tPairs_conditions {nodes : List SubNode} {code : Nat → Str}
    (hval : ∀ i, i < nodes.length → valid6 (code i))
    (htexts : ∀ sn ∈ nodes, sn.type = str "cue" → ∀ d, sn.data = some d →
      ∀ x ∈ d.text, jsDotChar x = true) :
    ∀ p ∈ tPairs (parseFile nodes code),
      valid6 p.1 ∧ p.2 ≠ [] ∧ ∀ x ∈ p.2, jsDotChar x = true := by
  intro p hp
  obtain ⟨n, hn, htype, hdt, hpe⟩ := tPairs_mem hp
  obtain ⟨i, sn, hget, hne⟩ := parseFile_mem hn
  have hlt : i < nodes.length := (List.get?_eq_some.mp hget).1
  have hsn : sn ∈ nodes := List.get?_mem hget
  subst hne
  subst hpe
  refine ⟨hval i hlt, hdt, ?_⟩
  cases hdd : sn.data with
  | none => rw [hdd] at hdt; simp [dataText] at hdt
  | some d =>
    intro x hx
    simp only [dataText] at hx
    exact htexts sn hsn htype d hdd x hx

theorem tPairs_conditions_good {nodes : List SubNode} {code : Nat → Str}
    (hval : ∀ i, i < nodes.length → valid6 (code i))
    (htexts : ∀ sn ∈ nodes, sn.type = str "cue" → ∀ d, sn.data = some d →
      d.text ≠ [] → goodLine d.text ∧ d.text ≠ str "<000000>") :
    ∀ p ∈ tPairs (parseFile nodes code),
      valid6 p.1 ∧ goodLine p.2 ∧ p.2 ≠ str "<000000>" := by
  intro p hp
  obtain ⟨n, hn, htype, hdt, hpe⟩ := tPairs_mem hp
  obtain ⟨i, sn, hget, hne⟩ := parseFile_mem hn
  have hlt : i < nodes.length := (List.get?_eq_some.mp hget).1
  have hsn : sn ∈ nodes := List.get?_mem hget
  subst hne
  subst hpe
  refine ⟨hval i hlt, ?_⟩
  cases hdd : sn.data with
  | none => rw [hdd] at hdt; simp [dataText] at hdt
  | some d =>
    have hdt2 : d.text ≠ [] := by
      rw [hdd] at hdt
      simpa [dataText] using hdt
    have h2 := htexts sn hsn htype d hdd hdt2
    simp only [dataText, hdd]
    exact h2

theorem apply_translated_restored {parsed : List TaggedNode}
    (hnd : (parsed.map TaggedNode.code).Nodup) :
    ∀ tn ∈ applyTranslationCues parsed (tPairs parsed),
      tn.type = str "cue" → dataText tn.data ≠ [] →
      tn.translated = some (dataText tn.data) := by
  intro tn htn ht hdt
  rw [applyTranslationCues] at htn
  obtain ⟨n, hn, he⟩ := List.mem_map.mp htn
  subst he
  simp only at ht hdt ⊢
  obtain ⟨d, hd⟩ : ∃ d, n.data = some d := by
    cases hdd : n.data with
    | none => rw [hdd] at hdt; simp [dataText] at hdt
    | some d => exact ⟨d, rfl⟩
  have htext : d.text ≠ [] := by rw [hd] at hdt; exact hdt
  rw [(outNodeOf_translatable hnd hn ht hd htext).1, hd]
  simp [dataText]

theorem pipeline_fail_master {nodes : List SubNode} {code : Nat → Str} {b : Int}
    (template lang : Str) (hb : 1 ≤ b)
    (hinj : ∀ i j, i < nodes.length → j < nodes.length → code i = code j → i = j)
    (hval : ∀ i, i < nodes.length → valid6 (code i))
    (htexts : ∀ sn ∈ nodes, sn.type = str "cue" → ∀ d, sn.data = some d →
      ∀ x ∈ d.text, jsDotChar x = true) :
    (runPipeline (fun _ => none) template lang b nodes code).map
      (fun l => l.map outView) = some (nodes.map inView) := by
  obtain ⟨qs, hq, hjoin⟩ := getMessageQueue_join (parseFile nodes code) hb
  have htrans : translateQueues (fun _ => none) template lang qs =
      (tPairs (parseFile nodes code)).map itemOf := by
    rw [translateQueues_id (fun q hq2 => translateQueue_fail template lang q), hjoin,
      cueLines_eq]
  have htc : translatedToCues (translateQueues (fun _ => none) template lang qs) =
      some (tPairs (parseFile nodes code)) := by
    rw [htrans]
    exact translatedToCues_items (tPairs_conditions hval htexts)
  rw [runPipeline_eq hq htc, Option.map_some', prepare_apply,
    views_restore (parseFile_code_nodup hinj), parseFile_view]

theorem pipeline_echo_master {nodes : List SubNode} {code : Nat → Str} {b : Int}
    (template lang : Str) (hb : 1 ≤ b)
    (hlen : (cueLines (parseFile nodes code)).length ≤ b.toNat)
    (hne : cueLines (parseFile nodes code) ≠ [])
    (hinj : ∀ i j, i < nodes.length → j < nodes.length → code i = code j → i = j)
    (hval : ∀ i, i < nodes.length → valid6 (code i))
    (htexts : ∀ sn ∈ nodes, sn.type = str "cue" → ∀ d, sn.data = some d →
      d.text ≠ [] → goodLine d.text ∧ d.text ≠ str "<000000>") :
    translateQueue (fun _ => some (joinSep sepStr (cueLines (parseFile nodes code))))
        template lang (cueLines (parseFile nodes code)) = cueLines (parseFile nodes code)
    ∧ translatedToCues (cueLines (parseFile nodes code)) =
        some (tPairs (parseFile nodes code))
    ∧ (runPipeline (fun _ => some (joinSep sepStr (cueLines (parseFile nodes code))))
        template lang b nodes code).map (fun l => l.map outView) =
        some (nodes.map inView) := by
  have hcond := tPairs_conditions_good hval htexts
  have hecho : translateQueue
      (fun _ => some (joinSep sepStr (cueLines (parseFile nodes code))))
      template lang (cueLines (parseFile nodes code)) =
      cueLines (parseFile nodes code) := by
    rw [cueLines_eq]
    exact translateQueue_echo hcond template lang
  have hparse : ∀ p ∈ tPairs (parseFile nodes code),
      valid6 p.1 ∧ p.2 ≠ [] ∧ ∀ x ∈ p.2, jsDotChar x = true := by
    intro p hp
    obtain ⟨h1, h2, h3⟩ := hcond p hp
    exact ⟨h1, goodLine_ne h2, goodLine_dot h2⟩
  have htc0 : translatedToCues (cueLines (parseFile nodes code)) =
      some (tPairs (parseFile nodes code)) := by
    rw [cueLines_eq]
    exact translatedToCues_items hparse
  refine ⟨hecho, htc0, ?_⟩
  have hq := getMessageQueue_single hb hlen hne
  have hsingle : translateQueues
      (fun _ => some (joinSep sepStr (cueLines (parseFile nodes code))))
      template lang [cueLines (parseFile nodes code)] =
      cueLines (parseFile nodes code) := by
    rw [translateQueues]
    simp only [List.foldl_cons, List.foldl_nil]
    rw [List.nil_append, hecho]
  have htc : translatedToCues (translateQueues
      (fun _ => some (joinSep sepStr (cueLines (parseFile nodes code))))
      template lang [cueLines (parseFile nodes code)]) =
      some (tPairs (parseFile nodes code)) := by
    rw [hsingle, htc0]
  rw [runPipeline_eq hq htc, Option.map_some', prepare_apply,
    views_restore (parseFile_code_nodup hinj), parseFile_view]

theorem matchTokenAt_eq_some {s : Str} {r : Str × Str} (h : matchTokenAt s = some r) :
    ∃ rest text, s = '<' :: rest ∧ rest.drop 6 = '>' :: '\n' :: text ∧
      r = (rest.take 6, text.takeWhile jsDotChar) := by
  rw [matchTokenAt.eq_def] at h
  split at h
  · split at h
    · split at h
      · exact ⟨_, _, rfl, by assumption, ((Option.some.injEq _ _).mp h).symm⟩
      · exact absurd h (by simp)
    · exact absurd h (by simp)
  all_goals exact absurd h (by simp)

theorem matchTokenAt_dot {s : Str} {r : Str × Str} (h : matchTokenAt s = some r) :
    ∀ x ∈ r.2, jsDotChar x = true := by
  intro x hx
  obtain ⟨rest, text, hs, hdrop, hr⟩ := matchTokenAt_eq_some h
  rw [hr] at hx
  exact List.mem_takeWhile_imp hx

theorem firstTokenMatch_dot {s : Str} {p : Str × Str}
    (h : firstTokenMatch s = some p) : ∀ x ∈ p.2, jsDotChar x = true := by
  induction s with
  | nil => exact absurd h (by simp [firstTokenMatch])
  | cons c rest ih =>
    rw [firstTokenMatch] at h
    cases hmt : matchTokenAt (c :: rest) with
    | none => rw [hmt] at h; exact ih h
    | some r =>
      rw [hmt] at h
      have hrp : r = p := (Option.some.injEq _ _).mp h
      rw [← hrp]
      exact matchTokenAt_dot hmt

theorem translatedToCues_shape : ∀ {ss : List Str} {ps : List (Str × Str)},
    translatedToCues ss = some ps →
    ps.length ≤ ss.length ∧
      ∀ p ∈ ps, ∃ s ∈ ss, firstTokenMatch s = some p ∧ p.1 ≠ [] ∧ p.2 ≠ [] := by
  intro ss
  induction ss with
  | nil =>
    intro ps h
    have hps : ps = [] := by
      rw [translatedToCues] at h
      exact ((Option.some.injEq _ _).mp h).symm
    subst hps
    exact ⟨by simp, by simp⟩
  | cons item rest ih =>
    intro ps h
    rw [translatedToCues] at h
    cases hfm : firstTokenMatch item with
    | none => rw [hfm] at h; exact absurd h (by simp)
    | some ct =>
      rw [hfm] at h
      cases htc : translatedToCues rest with
      | none => rw [htc] at h; exact absurd h (by simp)
      | some l =>
        rw [htc] at h
        have h2 : (if ct.1 = [] ∨ ct.2 = [] then some l else some (ct :: l)) =
            some ps := h
        obtain ⟨hlen, hmem⟩ := ih htc
        by_cases hc : ct.1 = [] ∨ ct.2 = []
        · rw [if_pos hc] at h2
          have hps : ps = l := ((Option.some.injEq _ _).mp h2).symm
          subst hps
          refine ⟨by simp; omega, ?_⟩
          intro p hp
          obtain ⟨s, hs, h1, h3⟩ := hmem p hp
          exact ⟨s, by simp [hs], h1, h3⟩
        · rw [if_neg hc] at h2
          have hps : ps = ct :: l := ((Option.some.injEq _ _).mp h2).symm
          subst hps
          push_neg at hc
          refine ⟨by simp; omega, ?_⟩
          intro p hp
          rcases List.mem_cons.mp hp with rfl | hp2
          · exact ⟨item, by simp, hfm, hc.1, hc.2⟩
          · obtain ⟨s, hs, h1, h3⟩ := hmem p hp2
            exact ⟨s, by simp [hs], h1, h3⟩

theorem mapGet_some_mem {ts : List (Str × Str)} {k t : Str}
    (h : mapGet ts k = some t) : (k, t) ∈ ts := by
  rw [mapGet] at h
  cases hf : ts.reverse.find? (fun p => p.1 == k) with
  | none => rw [hf] at h; exact absurd h (by simp)
  | some q =>
    rw [hf] at h
    have hq2 : q.2 = t := (Option.some.injEq _ _).mp h
    have hqk : q.1 = k := by
      have := List.find?_some hf
      simpa using this
    have hqmem : q ∈ ts := List.mem_reverse.mp (List.mem_of_find?_eq_some hf)
    have hqeq : q = (k, t) := by
      rw [← hqk, ← hq2]
    rw [← hqeq]
    exact hqmem

theorem outNodeOf_hit {ts : List (Str × Str)} {n : TaggedNode} {d : CueData} {t : Str}
    (hmg : mapGet ts n.code = some t) (ht : n.type = str "cue")
    (hd : n.data = some d) (htne : t ≠ []) :
    outNodeOf ts n = ⟨n.type, none, none, some ⟨d.startTime, d.endTime, t⟩⟩ := by
  rw [outNodeOf, hmg, hd]
  show (if t = [] ∨ n.type ≠ str "cue" then
      (⟨n.type, some n.code, some (some t), some d⟩ : OutNode)
    else ⟨n.type, none, none, some ⟨d.startTime, d.endTime, t⟩⟩) = _
  rw [if_neg (by simp [htne, ht])]

theorem outNodeOf_miss {ts : List (Str × Str)} {n : TaggedNode}
    (hmg : mapGet ts n.code = none) :
    outNodeOf ts n = ⟨n.type, some n.code, some none, n.data⟩ := by
  rw [outNodeOf, hmg]

theorem outNodeOf_type (ts : List (Str × Str)) (n : TaggedNode) :
    (outNodeOf ts n).type = n.type := by
  rw [outNodeOf]
  cases hmg : mapGet ts n.code with
  | none => rfl
  | some t =>
    cases hd : n.data with
    | none => rfl
    | some d =>
      show (if t = [] ∨ n.type ≠ str "cue" then
          (⟨n.type, some n.code, some (some t), some d⟩ : OutNode)
        else ⟨n.type, none, none, some ⟨d.startTime, d.endTime, t⟩⟩).type = n.type
      split <;> rfl

theorem outNodeOf_structural {ts : List (Str × Str)} {n : TaggedNode}
    (h : n.type ≠ str "cue") :
    outNodeOf ts n = ⟨n.type, some n.code, some (mapGet ts n.code), n.data⟩ := by
  rw [outNodeOf]
  cases hmg : mapGet ts n.code with
  | none => rfl
  | some t =>
    cases hd : n.data with
    | none => rfl
    | some d =>
      show (if t = [] ∨ n.type ≠ str "cue" then
          (⟨n.type, some n.code, some (some t), some d⟩ : OutNode)
        else ⟨n.type, none, none, some ⟨d.startTime, d.endTime, t⟩⟩) = _
      rw [if_pos (Or.inr h)]

theorem outNodeOf_dichotomy (ts : List (Str × Str)) (n : TaggedNode) :
    outNodeOf ts n = ⟨n.type, some n.code, some (mapGet ts n.code), n.data⟩ ∨
    ∃ t d, mapGet ts n.code = some t ∧ t ≠ [] ∧ n.data = some d ∧
      n.type = str "cue" ∧
      outNodeOf ts n = ⟨n.type, none, none, some ⟨d.startTime, d.endTime, t⟩⟩ := by
  cases hmg : mapGet ts n.code with
  | none => left; exact outNodeOf_miss hmg
  | some t =>
    cases hd : n.data with
    | none =>
      left
      rw [outNodeOf, hmg, hd]
    | some d =>
      by_cases hc : t = [] ∨ n.type ≠ str "cue"
      · left
        rw [outNodeOf, hmg, hd]
        show (if t = [] ∨ n.type ≠ str "cue" then
            (⟨n.type, some n.code, some (some t), some d⟩ : OutNode)
          else ⟨n.type, none, none, some ⟨d.startTime, d.endTime, t⟩⟩) = _
        rw [if_pos hc]
      · right
        push_neg at hc
        exact ⟨t, d, rfl, hc.1, rfl, hc.2,
          outNodeOf_hit hmg hc.2 hd hc.1⟩

/-- C7 (confirmed): for every integer batchSize ≥ 1, `getMessageQueue`
produces exactly `⌈n / batchSize⌉ = (n + batchSize - 1) / batchSize` batches
of the `n` translatable cue payloads, every batch except possibly the last
has exactly `batchSize` items, and the concatenation of the batches in
order is exactly the original payload sequence. -/
theorem c7_batch_partition (parsed : List TaggedNode) {b : Int} (hb : 1 ≤ b) :
    ∃ batches, getMessageQueue parsed b = some batches ∧
      batches.length = ((cueLines parsed).length + b.toNat - 1) / b.toNat ∧
      (∀ i bl, i + 1 < batches.length → batches[i]? = some bl →
        bl.length = b.toNat) ∧
      batches.flatten = cueLines parsed := by
  refine ⟨_, getMessageQueue_pos parsed hb, by simp, ?_,
    slices_join b.toNat (by omega) _ _ (ceil_mul_ge _ _ (by omega))⟩
  intro i bl hi hbl
  simp only [List.length_map, List.length_range] at hi
  rw [List.getElem?_map, List.getElem?_range (by omega)] at hbl
  simp only [Option.map_some'] at hbl
  have hbl2 := (Option.some.injEq _ _).mp hbl
  rw [← hbl2]
  exact batch_size_exact (by omega) hi

/-- Witness for C7 at a concrete input: three translatable cues with
batchSize 2 give two batches whose concatenation is the payload list. -/
theorem c7_batch_partition_witness :
    (getMessageQueue
      [⟨str "cue", str "AAA111", some ⟨0, 1, str "One"⟩⟩,
       ⟨str "cue", str "BBB222", some ⟨2, 3, str "Two"⟩⟩,
       ⟨str "cue", str "CCC333", some ⟨4, 5, str "Three"⟩⟩] 2).map
      (fun qs => (qs.length, qs.flatten)) =
    some (2, cueLines
      [⟨str "cue", str "AAA111", some ⟨0, 1, str "One"⟩⟩,
       ⟨str "cue", str "BBB222", some ⟨2, 3, str "Two"⟩⟩,
       ⟨str "cue", str "CCC333", some ⟨4, 5, str "Three"⟩⟩]) := by
  obtain ⟨batches, h1, h2, h3, h4⟩ := c7_batch_partition
    [⟨str "cue", str "AAA111", some ⟨0, 1, str "One"⟩⟩,
     ⟨str "cue", str "BBB222", some ⟨2, 3, str "Two"⟩⟩,
     ⟨str "cue", str "CCC333", some ⟨4, 5, str "Three"⟩⟩]
    (show (1 : Int) ≤ 2 by decide)
  rw [h1, Option.map_some', h2, h4]
  decide

/-- C8 counterexample: batchSize < 1 is not rejected at entry.  With
batchSize = -2 and one translatable cue, `Math.ceil(1 / -2)` is `-0` and
`Array(-0)` is empty, so the run completes normally with zero batches and
the cue emitted untranslated; likewise batchSize = -1 with no cues
completes.  Neither run is a fatal configuration error. -/
theorem c8_counterexample :
    runPipeline (fun _ => none) (str "p") (str "l") (-2)
      [⟨str "cue", some ⟨0, 1, str "Hi"⟩⟩] (fun _ => str "ABC123") =
      some [⟨str "cue", some (str "ABC123"), some none,
        some ⟨0, 1, str "Hi"⟩⟩] ∧
    runPipeline (fun _ => none) (str "p") (str "l") (-1) [] (fun _ => []) =
      some [] := by decide

/-- C8 amended: no batch-size validation exists at entry.  For an integer
batchSize < 1, the run fails only when batch construction is reached, and
only when the computed batch count is not `-0`: with at least `-batchSize`
translatable cues (in particular always when batchSize = 0) `Array(count)`
throws a RangeError, and this failure is independent of the transport,
i.e. it occurs before any TranslationTransport call.  With a negative
batchSize and fewer than `-batchSize` translatable cues the count is `-0`,
`Array(-0)` is empty, and the run completes normally with every cue
untranslated (see the counterexample). -/
theorem c8_no_entry_validation (transport : Str → Option Str)
    (template lang : Str) {b : Int} (nodes : List SubNode) (code : Nat → Str)
    (hb : b < 1)
    (h : -b ≤ ((cueLines (parseFile nodes code)).length : Int)) :
    runPipeline transport template lang b nodes code = none := by
  have hq : getMessageQueue (parseFile nodes code) b = none := by
    rw [getMessageQueue, if_neg (by omega)]
    have hnot : ¬(b < 0 ∧
        ((cueLines (parseFile nodes code)).length : Int) < -b) := by
      intro hcon
      omega
    rw [if_neg hnot]
  simp only [runPipeline, hq]

/-- Witness for C8 amended at a concrete input: batchSize -1 with one cue
node (so `Math.ceil(1 / -1) = -1` and `Array(-1)` throws) crashes the run
for a transport that is never consulted. -/
theorem c8_no_entry_validation_witness :
    runPipeline (fun _ => none) (str "p") (str "l") (-1)
      [⟨str "cue", some ⟨0, 1, str "Hi"⟩⟩] (fun _ => str "ABC123") = none :=
  c8_no_entry_validation (fun _ => none) (str "p") (str "l")
    [⟨str "cue", some ⟨0, 1, str "Hi"⟩⟩] (fun _ => str "ABC123")
    (by decide) (by decide)

/-- C3 (code bug): the reply parser is not total.  A reply segment without
any token marker makes `matchAll(...).next().value` the value `undefined`,
and destructuring it throws a TypeError: evaluated at the failing input
"Sure, here are the translations." the parser crashes (`none`) and so does
the whole run, instead of silently ignoring the unmatched line as the
specification requires. -/
theorem c3_parser_crash :
    translatedToCues [str "Sure, here are the translations."] = none ∧
    runPipeline (fun _ => some (str "Sure, here are the translations."))
      (str "Translate the following text into [lang] but keep the 6 digit codes between < > intact:\n\n[text]")
      (str "en-us") 15 [⟨str "cue", some ⟨0, 1, str "Hello"⟩⟩]
      (fun _ => str "ABC123") = none := by decide

/-- C4 counterexample: two well-formed markers inside one separator-delimited
segment; the parser recovers only the pair of the first marker, the second
pair is silently lost, refuting one-pair-per-marker completeness. -/
theorem c4_counterexample :
    translatedToCues [str "<ABC123>\nhello\n<DEF456>\nworld"] =
      some [(str "ABC123", str "hello")] ∧
    (str "DEF456", str "world") ∉ [(str "ABC123", str "hello")] := by decide

/-- C4 amended: the reply parser yields at most one (token, text) pair per
separator-delimited segment — each produced pair is the first regex match of
some segment, with nonempty token and text; markers after the first in the
same segment are ignored. -/
theorem c4_first_match_only {ss : List Str} {ps : List (Str × Str)}
    (h : translatedToCues ss = some ps) :
    ps.length ≤ ss.length ∧
      ∀ p ∈ ps, ∃ s ∈ ss, firstTokenMatch s = some p ∧ p.1 ≠ [] ∧ p.2 ≠ [] :=
  translatedToCues_shape h

/-- Witness for C4 amended at a concrete input. -/
theorem c4_first_match_only_witness :
    ([(str "ABC123", str "hello")] : List (Str × Str)).length ≤
      ([str "<ABC123>\nhello\n<DEF456>\nworld"] : List Str).length :=
  (c4_first_match_only (by decide)).1

/-- C5 counterexample: a non-text cue (cue type, empty text) does not pass
through unmodified for every set of recovered translations: its emptiness
is not re-checked at reassembly.  Here the transport answers the one-cue
batch with an extra pair bearing the empty-text cue's never-sent token (as
a token collision or an echoing reply can produce), and that cue comes out
with text "hi" and its token and translation fields stripped. -/
theorem c5_counterexample :
    runPipeline
      (fun _ => some (str "<AAA111>\nBonjour\n<000000>\n<ABC123>\nhi"))
      (str "T [lang]:\n\n[text]") (str "fr") 15
      [⟨str "cue", some ⟨0, 1, str "Hello"⟩⟩,
       ⟨str "cue", some ⟨2, 3, []⟩⟩]
      (fun i => if i = 0 then str "AAA111" else str "ABC123") =
      some [⟨str "cue", none, none, some ⟨0, 1, str "Bonjour"⟩⟩,
        ⟨str "cue", none, none, some ⟨2, 3, str "hi"⟩⟩] ∧
    (str "hi" : Str) ≠ [] := by decide

/-- C5 amended: reassembly plus output preparation preserves length and
order — the output list has the same length as the parsed node list and the
node at every index keeps its type — and passes records through untouched
in two cases: structural (non-cue) entries, whatever translations were
recovered, and any node whose token does not occur among the recovered
pairs.  (A cue-type node with empty text is not re-checked at reassembly:
when the recovered pairs carry its token, its text is replaced — see the
counterexample — so the unrestricted non-text passthrough fails.) -/
theorem c5_length_order (parsed : List TaggedNode) (ts : List (Str × Str)) :
    (prepareOutput (applyTranslationCues parsed ts)).length = parsed.length ∧
    (∀ i : Nat, ((prepareOutput (applyTranslationCues parsed ts))[i]?).map OutNode.type =
      (parsed[i]?).map TaggedNode.type) ∧
    (∀ (i : Nat) (n : TaggedNode), parsed[i]? = some n → n.type ≠ str "cue" →
      (prepareOutput (applyTranslationCues parsed ts))[i]? =
        some ⟨n.type, some n.code, some (mapGet ts n.code), n.data⟩) ∧
    ∀ (i : Nat) (n : TaggedNode), parsed[i]? = some n →
      n.code ∉ ts.map Prod.fst →
      (prepareOutput (applyTranslationCues parsed ts))[i]? =
        some ⟨n.type, some n.code, some none, n.data⟩ := by
  rw [prepare_apply]
  refine ⟨by simp, ?_, ?_, ?_⟩
  · intro i
    rw [List.getElem?_map]
    cases hi : parsed[i]? with
    | none => rfl
    | some n => simp [outNodeOf_type]
  · intro i n hi hnt
    rw [List.getElem?_map, hi, Option.map_some', outNodeOf_structural hnt]
  · intro i n hi hmiss
    rw [List.getElem?_map, hi, Option.map_some',
      outNodeOf_miss (mapGet_eq_none hmiss)]

/-- Witness for C5 amended at a concrete input: a header node passes
through with all its fields (including the attached token) unmodified. -/
theorem c5_length_order_witness :
    (prepareOutput (applyTranslationCues
      [⟨str "header", str "AAA111", none⟩] [(str "ZZZ999", str "x")]))[0]? =
    some ⟨str "header", some (str "AAA111"),
      some (mapGet [(str "ZZZ999", str "x")] (str "AAA111")), none⟩ :=
  (c5_length_order [⟨str "header", str "AAA111", none⟩]
    [(str "ZZZ999", str "x")]).2.2.1 0 ⟨str "header", str "AAA111", none⟩
    (by decide) (by decide)

/-- C6 counterexample: a cue that remains untranslated (the reply holds a
different token) is emitted with its correlation token still present in the
output record (`code := some "ABC123"`): the token is not discarded from
every output record before serialization. -/
theorem c6_counterexample :
    runPipeline (fun _ => some (str "<ZZZ999>\nfoo")) (str "T [lang]:\n\n[text]")
      (str "fr") 15 [⟨str "cue", some ⟨0, 1, str "Hi"⟩⟩]
      (fun _ => str "ABC123") =
      some [⟨str "cue", some (str "ABC123"), some none,
        some ⟨0, 1, str "Hi"⟩⟩] := by decide

/-- C6 amended: the correlation token field is removed from an output record
exactly when the cue received a translation; every other record — whether an
untranslated cue or a structural entry — passes through unchanged and keeps
the token field.  A replaced text always equals the text of one of the
recovered (token, text) pairs, so the reassembly itself never inserts a
token into a cue text. -/
theorem c6_token_removal (parsed : List TaggedNode) (ts : List (Str × Str)) :
    ∀ o ∈ prepareOutput (applyTranslationCues parsed ts), ∃ n ∈ parsed,
      o = ⟨n.type, some n.code, some (mapGet ts n.code), n.data⟩ ∨
      (o.code = none ∧ o.translated = none ∧ ∃ t d, (n.code, t) ∈ ts ∧
        n.data = some d ∧
        o = ⟨n.type, none, none, some ⟨d.startTime, d.endTime, t⟩⟩) := by
  intro o ho
  rw [prepare_apply] at ho
  obtain ⟨n, hn, he⟩ := List.mem_map.mp ho
  refine ⟨n, hn, ?_⟩
  rcases outNodeOf_dichotomy ts n with h1 | ⟨t, d, hmg, htne, hd, htp, h2⟩
  · left; rw [← he, h1]
  · right
    rw [← he, h2]
    exact ⟨rfl, rfl, t, d, mapGet_some_mem hmg, hd, rfl⟩

/-- Witness for C6 amended at a concrete input: the untranslated cue record
keeps its token field, equal to the generic passthrough record shape. -/
theorem c6_token_removal_witness :
    (⟨str "cue", some (str "ABC123"), some none, some ⟨0, 1, str "Hi"⟩⟩ : OutNode) =
      ⟨str "cue", some (str "ABC123"), some (mapGet [] (str "ABC123")),
        some ⟨0, 1, str "Hi"⟩⟩ := by
  obtain ⟨n, hn, hcase⟩ := c6_token_removal
    [⟨str "cue", str "ABC123", some ⟨0, 1, str "Hi"⟩⟩] []
    ⟨str "cue", some (str "ABC123"), some none, some ⟨0, 1, str "Hi"⟩⟩ (by decide)
  have hne : n = ⟨str "cue", str "ABC123", some ⟨0, 1, str "Hi"⟩⟩ :=
    List.mem_singleton.mp hn
  subst hne
  rcases hcase with h1 | ⟨_, _, t, d, hts, _⟩
  · exact h1
  · exact absurd hts (List.not_mem_nil _)

/-- C9 (confirmed): partial recovery — with the (token, text) pairs recovered
from a reply (distinct tokens, nonempty texts), exactly the cues whose token
appears among the pairs get the recovered text, and every cue whose token
does not appear keeps its record (and hence its text) unchanged; a partially
matching reply never fails reassembly as a whole. -/
theorem c9_partial_recovery (parsed : List TaggedNode) (ts : List (Str × Str))
    (hkeys : (ts.map Prod.fst).Nodup) (htexts : ∀ p ∈ ts, p.2 ≠ []) :
    prepareOutput (applyTranslationCues parsed ts) = parsed.map (outNodeOf ts) ∧
    (∀ n ∈ parsed, ∀ t, (n.code, t) ∈ ts → n.type = str "cue" →
      ∀ d, n.data = some d →
      outNodeOf ts n = ⟨n.type, none, none, some ⟨d.startTime, d.endTime, t⟩⟩) ∧
    ∀ n ∈ parsed, n.code ∉ ts.map Prod.fst →
      outNodeOf ts n = ⟨n.type, some n.code, some none, n.data⟩ := by
  refine ⟨prepare_apply parsed ts, ?_, ?_⟩
  · intro n hn t hts htype d hd
    exact outNodeOf_hit (mapGet_mem hkeys hts) htype hd (htexts _ hts)
  · intro n hn hmiss
    exact outNodeOf_miss (mapGet_eq_none hmiss)

/-- Witness for C9 at a concrete input: of two cues in a batch, the one
whose token appears in the reply is updated and the other keeps its text. -/
theorem c9_partial_recovery_witness :
    outNodeOf [(str "AAA111", str "Bonjour")]
      ⟨str "cue", str "AAA111", some ⟨0, 1, str "Hello"⟩⟩ =
      ⟨str "cue", none, none, some ⟨0, 1, str "Bonjour"⟩⟩ ∧
    outNodeOf [(str "AAA111", str "Bonjour")]
      ⟨str "cue", str "BBB222", some ⟨2, 3, str "World"⟩⟩ =
      ⟨str "cue", some (str "BBB222"), some none, some ⟨2, 3, str "World"⟩⟩ := by
  have h := c9_partial_recovery
    [⟨str "cue", str "AAA111", some ⟨0, 1, str "Hello"⟩⟩,
     ⟨str "cue", str "BBB222", some ⟨2, 3, str "World"⟩⟩]
    [(str "AAA111", str "Bonjour")] (by decide) (by decide)
  constructor
  · exact h.2.1 ⟨str "cue", str "AAA111", some ⟨0, 1, str "Hello"⟩⟩ (by decide)
      (str "Bonjour") (by decide) rfl ⟨0, 1, str "Hello"⟩ rfl
  · exact h.2.2 ⟨str "cue", str "BBB222", some ⟨2, 3, str "World"⟩⟩ (by decide)
      (by decide)

/-- C10 (confirmed, implicit claim): every text recovered by the reply
parser is a single line — it contains no newline — and consequently every
cue whose text was replaced during reassembly ends up with newline-free
text, whatever its original text was. -/
theorem c10_single_line {ss : List Str} {ps : List (Str × Str)}
    (h : translatedToCues ss = some ps) :
    (∀ p ∈ ps, ∀ c ∈ p.2, c ≠ '\n') ∧
    ∀ parsed : List TaggedNode,
      ∀ o ∈ prepareOutput (applyTranslationCues parsed ps),
      o.code = none → ∀ d, o.data = some d → ∀ c ∈ d.text, c ≠ '\n' := by
  have hdot : ∀ p ∈ ps, ∀ c ∈ p.2, jsDotChar c = true := by
    intro p hp
    obtain ⟨_, hmem⟩ := translatedToCues_shape h
    obtain ⟨s, _, hfm, _, _⟩ := hmem p hp
    exact firstTokenMatch_dot hfm
  refine ⟨fun p hp c hc => jsDotChar_ne_nl (hdot p hp c hc), ?_⟩
  intro parsed o ho hcode d hd c hc
  rw [prepare_apply] at ho
  obtain ⟨n, hn, he⟩ := List.mem_map.mp ho
  rcases outNodeOf_dichotomy ps n with h1 | ⟨t, d2, hmg, htne, hd2, htp, h2⟩
  · rw [← he, h1] at hcode
    exact absurd hcode (by simp)
  · have hpmem : (n.code, t) ∈ ps := mapGet_some_mem hmg
    have hdt : d.text = t := by
      rw [← he, h2] at hd
      have hdd := (Option.some.injEq _ _).mp hd
      rw [← hdd]
    rw [hdt] at hc
    exact jsDotChar_ne_nl (hdot (n.code, t) hpmem c hc)

/-- Witness for C10 at a concrete input. -/
theorem c10_single_line_witness : ('h' : Char) ≠ '\n' :=
  (@c10_single_line [str "<ABC123>\nhello"] [(str "ABC123", str "hello")]
      (by decide)).1
    (str "ABC123", str "hello") (by decide) 'h' (by decide)

/-- C2 counterexample: with a transport that always fails, a cue whose text
spans two lines ("a\nb") comes out with its text truncated to the first
line ("a") — the failed batch is re-parsed through the reply parser, whose
capture stops at the newline — so the final output does not equal the
input. -/
theorem c2_counterexample :
    runPipeline (fun _ => none) (str "T [lang]:\n\n[text]") (str "fr") 15
      [⟨str "cue", some ⟨0, 1, str "a\nb"⟩⟩] (fun _ => str "ABC123") =
      some [⟨str "cue", none, none, some ⟨0, 1, str "a"⟩⟩] ∧
    str "a" ≠ str "a\nb" := by decide

/-- C2 amended: with a transport that always fails, the run never raises
and the output equals the input (same length, order, types, timing and
text) provided every translatable cue text is a single line (contains no
line-terminator character); the drawn codes are the usual six-character
tokens, pairwise distinct.  (A multi-line text is instead truncated to its
first line — see the counterexample.) -/
theorem c2_fail_open (template lang : Str) {b : Int} (nodes : List SubNode)
    (code : Nat → Str) (hb : 1 ≤ b)
    (hinj : ∀ i j, i < nodes.length → j < nodes.length → code i = code j → i = j)
    (hval : ∀ i, i < nodes.length → valid6 (code i))
    (htexts : ∀ sn ∈ nodes, sn.type = str "cue" → ∀ d, sn.data = some d →
      ∀ x ∈ d.text, jsDotChar x = true) :
    (runPipeline (fun _ => none) template lang b nodes code).map
      (fun l => l.map outView) = some (nodes.map inView) :=
  pipeline_fail_master template lang hb hinj hval htexts

/-- Witness for C2 amended at a concrete input: one single-line cue survives
a total transport failure unchanged. -/
theorem c2_fail_open_witness :
    (runPipeline (fun _ => none) (str "T [lang]:\n\n[text]") (str "fr") 15
      [⟨str "cue", some ⟨0, 1, str "Hello"⟩⟩] (fun _ => str "ABC123")).map
      (fun l => l.map outView) =
    some (([⟨str "cue", some ⟨0, 1, str "Hello"⟩⟩] : List SubNode).map inView) := by
  refine c2_fail_open (str "T [lang]:\n\n[text]") (str "fr")
    [⟨str "cue", some ⟨0, 1, str "Hello"⟩⟩] (fun _ => str "ABC123")
    (by decide) (fun i j hi hj _ => by simp at hi hj; omega)
    (fun i _ => (⟨by decide, by decide⟩ : valid6 (str "ABC123"))) ?_
  intro sn hsn htype d hd x hx
  have hsn2 := List.mem_singleton.mp hsn
  subst hsn2
  have hd2 := (Option.some.injEq _ _).mp hd
  rw [← hd2] at hx
  have hall : ∀ y ∈ (⟨0, 1, str "Hello"⟩ : CueData).text, jsDotChar y = true := by
    decide
  exact hall x hx

/-- C1 counterexample: the transport echoes back exactly the rendered
request payload for the batch of the single cue with text "a\nb" (the
middle conjunct checks the echoed string is that payload), yet the final
cue text is "a", not the original "a\nb": the round trip does not restore
multi-line texts. -/
theorem c1_counterexample :
    runPipeline (fun _ => some (str "<ABC123>\na\nb")) (str "T [lang] [text]")
      (str "fr") 15 [⟨str "cue", some ⟨0, 1, str "a\nb"⟩⟩]
      (fun _ => str "ABC123") =
      some [⟨str "cue", none, none, some ⟨0, 1, str "a"⟩⟩] ∧
    joinSep sepStr (cueLines (parseFile [⟨str "cue", some ⟨0, 1, str "a\nb"⟩⟩]
      (fun _ => str "ABC123"))) = str "<ABC123>\na\nb" ∧
    str "a" ≠ str "a\nb" := by decide

/-- C1 amended: when the transport returns exactly the rendered request
payload of the (single) batch, the reply round-trips — the split of the
trimmed echo is the original queue, the parser recovers exactly the
(token, original text) pairs, every translatable cue gets its original text
as its translated value, and the final output equals the input — provided
every translatable cue text is a single line that does not begin with
whitespace and is not the reserved separator token line, and the drawn
codes are the usual six-character tokens, pairwise distinct. -/
theorem c1_round_trip (template lang : Str) {b : Int} (nodes : List SubNode)
    (code : Nat → Str) (hb : 1 ≤ b)
    (hlen : (cueLines (parseFile nodes code)).length ≤ b.toNat)
    (hne : cueLines (parseFile nodes code) ≠ [])
    (hinj : ∀ i j, i < nodes.length → j < nodes.length → code i = code j → i = j)
    (hval : ∀ i, i < nodes.length → valid6 (code i))
    (htexts : ∀ sn ∈ nodes, sn.type = str "cue" → ∀ d, sn.data = some d →
      d.text ≠ [] → goodLine d.text ∧ d.text ≠ str "<000000>") :
    translateQueue (fun _ => some (joinSep sepStr (cueLines (parseFile nodes code))))
        template lang (cueLines (parseFile nodes code)) =
        cueLines (parseFile nodes code) ∧
    translatedToCues (cueLines (parseFile nodes code)) =
        some (tPairs (parseFile nodes code)) ∧
    (∀ tn ∈ applyTranslationCues (parseFile nodes code)
        (tPairs (parseFile nodes code)),
      tn.type = str "cue" → dataText tn.data ≠ [] →
      tn.translated = some (dataText tn.data)) ∧
    (runPipeline (fun _ => some (joinSep sepStr (cueLines (parseFile nodes code))))
        template lang b nodes code).map (fun l => l.map outView) =
        some (nodes.map inView) := by
  obtain ⟨h1, h2, h3⟩ := pipeline_echo_master template lang hb hlen hne hinj hval htexts
  exact ⟨h1, h2, apply_translated_restored (parseFile_code_nodup hinj), h3⟩

/-- Witness for C1 amended at a concrete input: a single-line cue round
trips to an output equal to the input when the transport echoes the
payload. -/
theorem c1_round_trip_witness :
    (runPipeline (fun _ => some (joinSep sepStr (cueLines (parseFile
        [⟨str "cue", some ⟨0, 1, str "Hello"⟩⟩] (fun _ => str "ABC123")))))
      (str "T [lang]:\n\n[text]") (str "fr") 15
      [⟨str "cue", some ⟨0, 1, str "Hello"⟩⟩] (fun _ => str "ABC123")).map
      (fun l => l.map outView) =
    some (([⟨str "cue", some ⟨0, 1, str "Hello"⟩⟩] : List SubNode).map inView) := by
  have h := c1_round_trip (str "T [lang]:\n\n[text]") (str "fr")
    [⟨str "cue", some ⟨0, 1, str "Hello"⟩⟩] (fun _ => str "ABC123")
    (show (1 : Int) ≤ 15 by decide) (by decide) (by decide)
    (fun i j hi hj _ => by simp at hi hj; omega)
    (fun i _ => (⟨by decide, by decide⟩ : valid6 (str "ABC123"))) ?_
  · exact h.2.2.2
  · intro sn hsn htype d hd hne2
    have hsn2 := List.mem_singleton.mp hsn
    subst hsn2
    have hd2 := (Option.some.injEq _ _).mp hd
    rw [← hd2]
    exact ⟨⟨by decide, by decide⟩, by decide⟩
